import Mathlib

/-!
Shallow embedding of the generic singly-linked list implemented in
linkedlist/singly/node.go, together with the error sentinels of
errors/errors.go.

Pointers are modelled as natural-number addresses into an explicit heap
(a function from addresses to optional nodes) managed by a bump
allocator, so the pointer structure of the Go code (head and tail
references, node rethreading, pointer equality tests) is represented
faithfully.  Loops of the Go source that walk the chain until nil carry
an explicit fuel argument bounded by list.size; under the structural
invariant Inv proved below the chain from the head has exactly size
nodes, so the fuel is never the reason a traversal stops.  Go int is
modelled as Int (nothing here approaches overflow), the Go zero value
of the element type as Inhabited.default, and a Go error result as
Option Err with none standing for nil.
-/

/-- The three error sentinels of errors/errors.go. -/
inductive Err where
  | indexOutOfBounds
  | emptyList
  | elementNotFound
deriving DecidableEq

/-- The node struct of the Go source: a stored value and the next
pointer, where none models a nil pointer. -/
structure Singly.Node (T : Type) where
  value : T
  next : Option Nat
deriving DecidableEq

/-- The node heap: addresses to allocated nodes. -/
abbrev Singly.Heap (T : Type) := Nat → Option (Singly.Node T)

/-- Allocator state: the heap plus the bump counter, which is the next
fresh address. -/
structure Singly.Mem (T : Type) where
  heap : Singly.Heap T
  alloc : Nat

/-- The List struct of the Go source: first and last node pointers and
the element count. -/
structure Singly.SList (T : Type) where
  first : Option Nat
  last : Option Nat
  size : Int

/-- A program state: the memory together with the list struct. -/
structure Singly.St (T : Type) where
  mem : Singly.Mem T
  lst : Singly.SList T

variable {T : Type}

/-- Dereference a pointer; a nil pointer or a dangling address gives
none. -/
def Singly.deref (h : Singly.Heap T) : Option Nat → Option (Singly.Node T)
  | none => none
  | some a => h a

/-- Read node.next through a pointer.  On a nil pointer the Go code
would crash; under Inv that never happens, and the model returns none
there. -/
def Singly.nextPtr (h : Singly.Heap T) (p : Option Nat) : Option Nat :=
  match Singly.deref h p with
  | none => none
  | some nd => nd.next

/-- Read node.value through a pointer; default stands for the
unreachable nil dereference. -/
def Singly.valAt [Inhabited T] (h : Singly.Heap T) (p : Option Nat) : T :=
  match Singly.deref h p with
  | none => default
  | some nd => nd.value

/-- Overwrite one heap cell. -/
def Singly.hset (h : Singly.Heap T) (a : Nat) (nd : Singly.Node T) : Singly.Heap T :=
  fun x => if x = a then some nd else h x

/-- The assignment p.next = q (a no-op on nil, unreachable under Inv). -/
def Singly.setNext (h : Singly.Heap T) (p : Option Nat) (q : Option Nat) : Singly.Heap T :=
  match p with
  | none => h
  | some a =>
    match h a with
    | none => h
    | some nd => Singly.hset h a ⟨nd.value, q⟩

/-- The assignment p.value = v (a no-op on nil, unreachable under Inv). -/
def Singly.setVal (h : Singly.Heap T) (p : Option Nat) (v : T) : Singly.Heap T :=
  match p with
  | none => h
  | some a =>
    match h a with
    | none => h
    | some nd => Singly.hset h a ⟨v, nd.next⟩

/-- A Go composite literal elem := &node\x7bvalue: v, next: p\x7d:
returns the new memory and the fresh address. -/
def Singly.allocNode (m : Singly.Mem T) (v : T) (p : Option Nat) :
    Singly.Mem T × Nat :=
  (⟨Singly.hset m.heap m.alloc ⟨v, p⟩, m.alloc + 1⟩, m.alloc)

/-- The loop for i := 0; i != index; i, node = i+1, node.next. -/
def Singly.walk (h : Singly.Heap T) (p : Option Nat) : Nat → Option Nat
  | 0 => p
  | n + 1 => Singly.walk h (Singly.nextPtr h p) n

/-- The loop of Remove and Insert that also tracks the predecessor:
each iteration does prev = node; node = node.next. -/
def Singly.walkWithPrev (h : Singly.Heap T) :
    Option Nat → Option Nat → Nat → Option Nat × Option Nat
  | prev, cur, 0 => (prev, cur)
  | _prev, cur, n + 1 => Singly.walkWithPrev h cur (Singly.nextPtr h cur) n

/-- Method inBounds: index >= 0 && index < list.size. -/
def Singly.inBounds (l : Singly.SList T) (index : Int) : Bool :=
  decide (index ≥ 0) && decide (index < l.size)

/-- Method Size. -/
def Singly.Size (s : Singly.St T) : Singly.St T × Int :=
  (s, s.lst.size)

/-- Method IsEmpty: list.size == 0. -/
def Singly.IsEmpty (s : Singly.St T) : Singly.St T × Bool :=
  (s, decide (s.lst.size = 0))

/-- The body of the Add loop for a single value. -/
def Singly.addOne (s : Singly.St T) (value : T) : Singly.St T :=
  let ma := Singly.allocNode s.mem value none
  if s.lst.size = 0 then
    ⟨ma.1, ⟨some ma.2, some ma.2, s.lst.size + 1⟩⟩
  else
    ⟨⟨Singly.setNext ma.1.heap s.lst.last (some ma.2), ma.1.alloc⟩,
      ⟨s.lst.first, some ma.2, s.lst.size + 1⟩⟩

/-- Method Add: appends each value in order at the tail. -/
def Singly.Add (s : Singly.St T) (values : List T) : Singly.St T :=
  values.foldl Singly.addOne s

/-- Method Append, an alias for Add. -/
def Singly.Append (s : Singly.St T) (values : List T) : Singly.St T :=
  Singly.Add s values

/-- The body of the Prepend loop for a single value. -/
def Singly.prependOne (s : Singly.St T) (value : T) : Singly.St T :=
  let ma := Singly.allocNode s.mem value s.lst.first
  ⟨ma.1, ⟨some ma.2, if s.lst.size = 0 then some ma.2 else s.lst.last,
    s.lst.size + 1⟩⟩

/-- Method Prepend: iterates over values from the last argument down to
the first, pushing each at the front. -/
def Singly.Prepend (s : Singly.St T) (values : List T) : Singly.St T :=
  values.foldr (fun v t => Singly.prependOne t v) s

/-- Function New: empty list, then Add when values were supplied. -/
def Singly.New (values : List T) : Singly.St T :=
  let s : Singly.St T := ⟨⟨fun _ => none, 0⟩, ⟨none, none, 0⟩⟩
  if values.length > 0 then Singly.Add s values else s

/-- Method First. -/
def Singly.First [Inhabited T] (s : Singly.St T) :
    Singly.St T × T × Option Err :=
  if (Singly.IsEmpty s).2 then (s, default, some .emptyList)
  else (s, Singly.valAt s.mem.heap s.lst.first, none)

/-- Method Last. -/
def Singly.Last [Inhabited T] (s : Singly.St T) :
    Singly.St T × T × Option Err :=
  if (Singly.IsEmpty s).2 then (s, default, some .emptyList)
  else (s, Singly.valAt s.mem.heap s.lst.last, none)

/-- Method Get. -/
def Singly.Get [Inhabited T] (s : Singly.St T) (index : Int) :
    Singly.St T × T × Option Err :=
  if ! Singly.inBounds s.lst index then (s, default, some .indexOutOfBounds)
  else
    (s, Singly.valAt s.mem.heap (Singly.walk s.mem.heap s.lst.first index.toNat),
      none)

/-- The fill loop of Values, following next pointers; the length
list.size of the allocated slice is the bound. -/
def Singly.collect (h : Singly.Heap T) : Option Nat → Nat → List T
  | _, 0 => []
  | p, fuel + 1 =>
    match Singly.deref h p with
    | none => []
    | some nd => nd.value :: Singly.collect h nd.next fuel

/-- Method Values. -/
def Singly.Values (s : Singly.St T) : Singly.St T × List T :=
  (s, Singly.collect s.mem.heap s.lst.first s.lst.size.toNat)

/-- The search loop of IndexOf. -/
def Singly.findIdx [DecidableEq T] (h : Singly.Heap T) (value : T) :
    Option Nat → Int → Nat → Int × Option Err
  | p, index, fuel =>
    match Singly.deref h p, fuel with
    | none, _ => (-1, some .elementNotFound)
    | some _, 0 => (-1, some .elementNotFound)
    | some nd, fuel + 1 =>
      if nd.value = value then (index, none)
      else Singly.findIdx h value nd.next (index + 1) fuel

/-- Method IndexOf. -/
def Singly.IndexOf [DecidableEq T] (s : Singly.St T) (value : T) :
    Singly.St T × Int × Option Err :=
  if (Singly.IsEmpty s).2 then (s, -1, some .emptyList)
  else (s, Singly.findIdx s.mem.heap value s.lst.first 0 s.lst.size.toNat)

/-- Method Clear. -/
def Singly.Clear (s : Singly.St T) : Singly.St T :=
  ⟨s.mem, ⟨none, none, 0⟩⟩

/-- Method Remove. -/
def Singly.Remove (s : Singly.St T) (index : Int) :
    Singly.St T × Option Err :=
  if (Singly.IsEmpty s).2 then (s, some .emptyList)
  else if ! Singly.inBounds s.lst index then (s, some .indexOutOfBounds)
  else
    let pc := Singly.walkWithPrev s.mem.heap none s.lst.first index.toNat
    let first :=
      if pc.2 = s.lst.first then Singly.nextPtr s.mem.heap pc.2 else s.lst.first
    let last := if pc.2 = s.lst.last then pc.1 else s.lst.last
    let heap :=
      if pc.1 ≠ none then
        Singly.setNext s.mem.heap pc.1 (Singly.nextPtr s.mem.heap pc.2)
      else s.mem.heap
    (⟨⟨heap, s.mem.alloc⟩, ⟨first, last, s.lst.size - 1⟩⟩, none)

/-- Insertion into the Go map valuesToFind (keys only). -/
def Singly.mapInsert [DecidableEq T] (m : List T) (v : T) : List T :=
  if v ∈ m then m else m ++ [v]

/-- The loop building valuesToFind from the arguments of Contains. -/
def Singly.toFindSet [DecidableEq T] (values : List T) : List T :=
  values.foldl Singly.mapInsert []

/-- The traversal loop of Contains: drop every visited value from the
working set, succeed once it empties, fail when the chain ends. -/
def Singly.containsLoop [DecidableEq T] (h : Singly.Heap T) :
    Option Nat → List T → Nat → Bool
  | _, _, 0 => false
  | p, toFind, fuel + 1 =>
    match Singly.deref h p with
    | none => false
    | some nd =>
      if nd.value ∈ toFind then
        let rest := toFind.erase nd.value
        if rest.length = 0 then true
        else Singly.containsLoop h nd.next rest fuel
      else Singly.containsLoop h nd.next toFind fuel

/-- Method Contains.  Note the early return compares list.size with the
raw argument count len(values), before duplicates are collapsed into
the working set. -/
def Singly.Contains [DecidableEq T] (s : Singly.St T) (values : List T) :
    Singly.St T × Bool :=
  if values.length = 0 then (s, true)
  else if s.lst.size = 0 ∨ s.lst.size < (values.length : Int) then (s, false)
  else
    (s, Singly.containsLoop s.mem.heap s.lst.first (Singly.toFindSet values)
      s.lst.size.toNat)

/-- The single-pass locating loop of Swap, with its early exit once both
nodes are found. -/
def Singly.findTwo (h : Singly.Heap T) (i j : Int) :
    Option Nat → Int → Option Nat → Option Nat → Nat →
      Option Nat × Option Nat
  | current, n, node1, node2, fuel =>
    match fuel with
    | 0 => (node1, node2)
    | fuel + 1 =>
      if current ≠ none ∧ (node1 = none ∨ node2 = none) then
        let node1 := if i = n then current else node1
        let node2 := if j = n then current else node2
        Singly.findTwo h i j (Singly.nextPtr h current) (n + 1) node1 node2 fuel
      else (node1, node2)

/-- Method Swap.  The parallel assignment node1.value, node2.value =
node2.value, node1.value reads both values first, then writes them. -/
def Singly.Swap [Inhabited T] (s : Singly.St T) (i j : Int) :
    Singly.St T × Option Err :=
  if ! Singly.inBounds s.lst i ∨ ! Singly.inBounds s.lst j then
    (s, some .indexOutOfBounds)
  else if i = j then (s, none)
  else
    let nn := Singly.findTwo s.mem.heap i j s.lst.first 0 none none
      (s.lst.size.toNat + 1)
    let v1 := Singly.valAt s.mem.heap nn.1
    let v2 := Singly.valAt s.mem.heap nn.2
    let h1 := Singly.setVal s.mem.heap nn.1 v2
    let h2 := Singly.setVal h1 nn.2 v1
    (⟨⟨h2, s.mem.alloc⟩, s.lst⟩, none)

/-- The splicing loop of Insert: allocate each value, hook it behind
prev, advance prev. -/
def Singly.spliceLoop (m : Singly.Mem T) (prev : Option Nat) :
    List T → Singly.Mem T × Option Nat
  | [] => (m, prev)
  | v :: rest =>
    let ma := Singly.allocNode m v none
    Singly.spliceLoop ⟨Singly.setNext ma.1.heap prev (some ma.2), ma.1.alloc⟩
      (some ma.2) rest

/-- Method Insert. -/
def Singly.Insert (s : Singly.St T) (index : Int) (values : List T) :
    Singly.St T × Option Err :=
  if ! Singly.inBounds s.lst index then
    if index = s.lst.size then (Singly.Append s values, none)
    else (s, some .indexOutOfBounds)
  else if index = 0 then (Singly.Prepend s values, none)
  else
    let lst1 : Singly.SList T :=
      ⟨s.lst.first, s.lst.last, s.lst.size + values.length⟩
    let pc := Singly.walkWithPrev s.mem.heap none s.lst.first index.toNat
    let oldNext := Singly.nextPtr s.mem.heap pc.1
    let mp := Singly.spliceLoop s.mem pc.1 values
    (⟨⟨Singly.setNext mp.1.heap mp.2 oldNext, mp.1.alloc⟩, lst1⟩, none)

/-- Method Set. -/
def Singly.Set (s : Singly.St T) (index : Int) (value : T) :
    Singly.St T × Option Err :=
  if ! Singly.inBounds s.lst index then (s, some .indexOutOfBounds)
  else
    let p := Singly.walk s.mem.heap s.lst.first index.toNat
    (⟨⟨Singly.setVal s.mem.heap p value, s.mem.alloc⟩, s.lst⟩, none)

/-- Addresses of a cell list (one pair per node: address and stored
value). -/
def Singly.addrs (cells : List (Nat × T)) : List Nat := cells.map Prod.fst

/-- Values of a cell list. -/
def Singly.vals (cells : List (Nat × T)) : List T := cells.map Prod.snd

/-- A chain segment in the heap: starting from pointer p, the listed
cells are traversed in order via next pointers, ending at pointer r. -/
inductive Singly.Seg (h : Singly.Heap T) :
    Option Nat → List (Nat × T) → Option Nat → Prop where
  | nil (p : Option Nat) : Singly.Seg h p [] p
  | cons {a : Nat} {v : T} {q : Option Nat} {cells : List (Nat × T)}
      {r : Option Nat} (ha : h a = some ⟨v, q⟩)
      (hrest : Singly.Seg h q cells r) :
      Singly.Seg h (some a) ((a, v) :: cells) r

/-- The address of the last cell, none for the empty chain. -/
def Singly.lastAddr (cells : List (Nat × T)) : Option Nat :=
  (Singly.addrs cells).getLast?

/-- The structural invariant of a list state, relating it to the cells
of its node chain: the chain runs from first to nil, last points at the
final node, every chain address is below the allocation bound and size
counts the nodes. -/
def Singly.Inv (s : Singly.St T) (cells : List (Nat × T)) : Prop :=
  Singly.Seg s.mem.heap s.lst.first cells none ∧
  s.lst.last = Singly.lastAddr cells ∧
  (∀ a ∈ Singly.addrs cells, a < s.mem.alloc) ∧
  s.lst.size = (cells.length : Int)

/-- A well-formed state: some cell list realises the invariant. -/
def Singly.WF (s : Singly.St T) : Prop := ∃ cells, Singly.Inv s cells

/-- One call of any exported list operation, as a transition relation on
program states. -/
inductive Singly.Step [DecidableEq T] [Inhabited T] :
    Singly.St T → Singly.St T → Prop where
  | size (s : Singly.St T) : Singly.Step s (Singly.Size s).1
  | isEmpty (s : Singly.St T) : Singly.Step s (Singly.IsEmpty s).1
  | add (s : Singly.St T) (values : List T) : Singly.Step s (Singly.Add s values)
  | append (s : Singly.St T) (values : List T) :
      Singly.Step s (Singly.Append s values)
  | prepend (s : Singly.St T) (values : List T) :
      Singly.Step s (Singly.Prepend s values)
  | first (s : Singly.St T) : Singly.Step s (Singly.First s).1
  | last (s : Singly.St T) : Singly.Step s (Singly.Last s).1
  | get (s : Singly.St T) (index : Int) : Singly.Step s (Singly.Get s index).1
  | values (s : Singly.St T) : Singly.Step s (Singly.Values s).1
  | indexOf (s : Singly.St T) (value : T) :
      Singly.Step s (Singly.IndexOf s value).1
  | clear (s : Singly.St T) : Singly.Step s (Singly.Clear s)
  | remove (s : Singly.St T) (index : Int) :
      Singly.Step s (Singly.Remove s index).1
  | contains (s : Singly.St T) (values : List T) :
      Singly.Step s (Singly.Contains s values).1
  | swap (s : Singly.St T) (i j : Int) : Singly.Step s (Singly.Swap s i j).1
  | insert (s : Singly.St T) (index : Int) (values : List T) :
      Singly.Step s (Singly.Insert s index values).1
  | set (s : Singly.St T) (index : Int) (value : T) :
      Singly.Step s (Singly.Set s index value).1

@[simp] theorem Singly.addrs_nil : Singly.addrs ([] : List (Nat × T)) = [] := rfl

@[simp] theorem Singly.addrs_cons (c : Nat × T) (l : List (Nat × T)) :
    Singly.addrs (c :: l) = c.1 :: Singly.addrs l := rfl

@[simp] theorem Singly.addrs_append (l1 l2 : List (Nat × T)) :
    Singly.addrs (l1 ++ l2) = Singly.addrs l1 ++ Singly.addrs l2 := by
  simp [Singly.addrs]

@[simp] theorem Singly.length_addrs (l : List (Nat × T)) :
    (Singly.addrs l).length = l.length := by
  simp [Singly.addrs]

@[simp] theorem Singly.vals_nil : Singly.vals ([] : List (Nat × T)) = [] := rfl

@[simp] theorem Singly.vals_cons (c : Nat × T) (l : List (Nat × T)) :
    Singly.vals (c :: l) = c.2 :: Singly.vals l := rfl

@[simp] theorem Singly.vals_append (l1 l2 : List (Nat × T)) :
    Singly.vals (l1 ++ l2) = Singly.vals l1 ++ Singly.vals l2 := by
  simp [Singly.vals]

@[simp] theorem Singly.length_vals (l : List (Nat × T)) :
    (Singly.vals l).length = l.length := by
  simp [Singly.vals]

theorem Singly.Seg.append {h : Singly.Heap T} {p q r : Option Nat}
    {l1 l2 : List (Nat × T)} (h1 : Singly.Seg h p l1 q)
    (h2 : Singly.Seg h q l2 r) : Singly.Seg h p (l1 ++ l2) r := by
  induction h1 with
  | nil _ => simpa using h2
  | cons ha _ ih => exact Singly.Seg.cons ha (ih h2)

theorem Singly.Seg.split {h : Singly.Heap T} {p r : Option Nat}
    {l1 l2 : List (Nat × T)} (hs : Singly.Seg h p (l1 ++ l2) r) :
    ∃ q, Singly.Seg h p l1 q ∧ Singly.Seg h q l2 r := by
  induction l1 generalizing p with
  | nil => exact ⟨p, Singly.Seg.nil p, hs⟩
  | cons c rest ih =>
    obtain ⟨a, v⟩ := c
    cases hs with
    | cons ha htail =>
      obtain ⟨q, hq1, hq2⟩ := ih htail
      exact ⟨q, Singly.Seg.cons ha hq1, hq2⟩

theorem Singly.seg_none_unique {h : Singly.Heap T} :
    ∀ {l1 : List (Nat × T)} {p : Option Nat} {l2 : List (Nat × T)},
      Singly.Seg h p l1 none → Singly.Seg h p l2 none → l1 = l2 := by
  intro l1
  induction l1 with
  | nil =>
    intro p l2 h1 h2
    cases h1
    cases h2
    rfl
  | cons c rest ih =>
    intro p l2 h1 h2
    obtain ⟨a, v⟩ := c
    cases h1 with
    | cons ha htail =>
      cases h2 with
      | cons hb htail2 =>
        rw [ha] at hb
        simp only [Option.some.injEq, Singly.Node.mk.injEq] at hb
        obtain ⟨rfl, rfl⟩ := hb
        rw [ih htail htail2]

theorem Singly.seg_mem {h : Singly.Heap T} {p r : Option Nat}
    {l : List (Nat × T)} (hs : Singly.Seg h p l r) {a : Nat} {v : T}
    (hm : (a, v) ∈ l) : ∃ q, h a = some ⟨v, q⟩ := by
  induction hs with
  | nil _ => cases hm
  | cons ha _ ih =>
    rcases List.mem_cons.1 hm with hc | hc
    · cases hc
      exact ⟨_, ha⟩
    · exact ih hc

theorem Singly.seg_nodup {h : Singly.Heap T} :
    ∀ {l : List (Nat × T)} {p : Option Nat}, Singly.Seg h p l none →
      (Singly.addrs l).Nodup := by
  intro l
  induction l with
  | nil => intro p _; simp
  | cons c rest ih =>
    intro p hs
    obtain ⟨a, v⟩ := c
    cases hs with
    | cons ha htail =>
      simp only [Singly.addrs_cons, List.nodup_cons]
      refine ⟨?_, ih htail⟩
      intro hmem
      obtain ⟨w, hw⟩ : ∃ w, (a, w) ∈ rest := by
        obtain ⟨c2, hc2, hfst⟩ := List.mem_map.1 hmem
        refine ⟨c2.2, ?_⟩
        rw [← hfst]
        simpa using hc2
      obtain ⟨s, t, rfl⟩ := List.append_of_mem hw
      obtain ⟨q2, hq1, hq2⟩ := Singly.Seg.split htail
      have hq2start : q2 = some a := by cases hq2; rfl
      subst hq2start
      have hfull : Singly.Seg h (some a) ((a, v) :: (s ++ (a, w) :: t)) none :=
        Singly.Seg.cons ha htail
      have := Singly.seg_none_unique hfull hq2
      have hlen := congrArg List.length this
      simp at hlen
      omega

theorem Singly.Seg.agree {h h2 : Singly.Heap T} {p r : Option Nat}
    {l : List (Nat × T)} (hs : Singly.Seg h p l r)
    (hag : ∀ a ∈ Singly.addrs l, h2 a = h a) : Singly.Seg h2 p l r := by
  induction hs with
  | nil p => exact Singly.Seg.nil p
  | cons ha htail ih =>
    refine Singly.Seg.cons ?_ (ih ?_)
    · rw [hag _ (by simp)]
      exact ha
    · intro x hx
      exact hag x (by simp [hx])

theorem Singly.Seg.hset_frame {h : Singly.Heap T} {p r : Option Nat}
    {l : List (Nat × T)} (hs : Singly.Seg h p l r) {a : Nat}
    (hnm : a ∉ Singly.addrs l) (nd : Singly.Node T) :
    Singly.Seg (Singly.hset h a nd) p l r := by
  refine hs.agree ?_
  intro x hx
  have hxa : x ≠ a := fun e => hnm (e ▸ hx)
  simp [Singly.hset, hxa]

theorem Singly.hset_self (h : Singly.Heap T) (a : Nat) (nd : Singly.Node T) :
    Singly.hset h a nd a = some nd := by
  simp [Singly.hset]

theorem Singly.hset_other (h : Singly.Heap T) {a x : Nat} (nd : Singly.Node T)
    (hx : x ≠ a) : Singly.hset h a nd x = h x := by
  simp [Singly.hset, hx]

theorem Singly.seg_walk {h : Singly.Heap T} {p r : Option Nat}
    {l : List (Nat × T)} (hs : Singly.Seg h p l r) :
    Singly.walk h p l.length = r := by
  induction hs with
  | nil p => rfl
  | cons ha _ ih =>
    simpa [Singly.walk, Singly.nextPtr, Singly.deref, ha] using ih

theorem Singly.walk_add (h : Singly.Heap T) (p : Option Nat) (m n : Nat) :
    Singly.walk h p (m + n) = Singly.walk h (Singly.walk h p m) n := by
  induction m generalizing p with
  | zero => simp [Singly.walk]
  | succ m ih =>
    rw [Nat.succ_add]
    show Singly.walk h (Singly.nextPtr h p) (m + n) = _
    rw [ih]
    rfl

theorem Singly.seg_walk_split {h : Singly.Heap T} {p : Option Nat}
    {l : List (Nat × T)} (hs : Singly.Seg h p l none) (k : Nat)
    (hk : k ≤ l.length) :
    Singly.Seg h p (l.take k) (Singly.walk h p k) ∧
      Singly.Seg h (Singly.walk h p k) (l.drop k) none := by
  have hs2 := hs
  rw [← List.take_append_drop k l] at hs2
  obtain ⟨q, h1, h2⟩ := Singly.Seg.split hs2
  have hw : Singly.walk h p k = q := by
    have hwl := Singly.seg_walk h1
    rwa [List.length_take, Nat.min_eq_left hk] at hwl
  exact hw ▸ ⟨h1, h2⟩

theorem Singly.seg_cons_inv {h : Singly.Heap T} {p r : Option Nat}
    {c : Nat × T} {l : List (Nat × T)} (hs : Singly.Seg h p (c :: l) r) :
    p = some c.1 ∧ ∃ q, h c.1 = some ⟨c.2, q⟩ ∧ Singly.Seg h q l r := by
  obtain ⟨a, v⟩ := c
  cases hs with
  | cons ha htail => exact ⟨rfl, _, ha, htail⟩

theorem Singly.seg_at {h : Singly.Heap T} {p : Option Nat}
    {l : List (Nat × T)} (hs : Singly.Seg h p l none) {k : Nat}
    (hk : k < l.length) :
    ∃ a v q, l[k]? = some (a, v) ∧ Singly.walk h p k = some a ∧
      h a = some ⟨v, q⟩ ∧ Singly.walk h p (k + 1) = q ∧
      Singly.Seg h q (l.drop (k + 1)) none := by
  obtain ⟨h1, h2⟩ := Singly.seg_walk_split hs k (le_of_lt hk)
  rw [List.drop_eq_getElem_cons hk] at h2
  obtain ⟨hstart, q, hnode, htail⟩ := Singly.seg_cons_inv h2
  refine ⟨l[k].1, l[k].2, q, ?_, hstart, hnode, ?_, htail⟩
  · simp [List.getElem?_eq_getElem hk]
  · rw [Singly.walk_add h p k 1, hstart]
    simp [Singly.walk, Singly.nextPtr, Singly.deref, hnode]

theorem Singly.seg_nil_inv {h : Singly.Heap T} {p r : Option Nat}
    (hs : Singly.Seg h p ([] : List (Nat × T)) r) : p = r := by
  cases hs
  rfl

theorem Singly.Inv.size_eq {s : Singly.St T} {cells : List (Nat × T)}
    (hinv : Singly.Inv s cells) : s.lst.size = (cells.length : Int) :=
  hinv.2.2.2

theorem Singly.Inv.size_toNat {s : Singly.St T} {cells : List (Nat × T)}
    (hinv : Singly.Inv s cells) : s.lst.size.toNat = cells.length := by
  rw [hinv.size_eq]
  simp

theorem Singly.Inv.alloc_not_mem {s : Singly.St T} {cells : List (Nat × T)}
    (hinv : Singly.Inv s cells) : s.mem.alloc ∉ Singly.addrs cells :=
  fun hmem => absurd (hinv.2.2.1 _ hmem) (lt_irrefl _)

theorem Singly.lastAddr_concat (cells : List (Nat × T)) (c : Nat × T) :
    Singly.lastAddr (cells ++ [c]) = some c.1 := by
  simp [Singly.lastAddr, List.getLast?_concat]

theorem Singly.lastAddr_cons_of_ne_nil {cells : List (Nat × T)} (c : Nat × T)
    (hne : cells ≠ []) : Singly.lastAddr (c :: cells) = Singly.lastAddr cells := by
  have : Singly.addrs cells ≠ [] := by
    intro hx
    exact hne (by simpa using congrArg List.length hx)
  show (([c.1] ++ Singly.addrs cells).getLast? = _)
  rw [List.getLast?_append_of_ne_nil _ this]
  rfl

theorem Singly.setNext_eq {h : Singly.Heap T} {a : Nat} {v : T}
    {q0 : Option Nat} (ha : h a = some ⟨v, q0⟩) (q : Option Nat) :
    Singly.setNext h (some a) q = Singly.hset h a ⟨v, q⟩ := by
  simp only [Singly.setNext]
  rw [ha]

theorem Singly.setVal_eq {h : Singly.Heap T} {a : Nat} {v0 : T}
    {q : Option Nat} (ha : h a = some ⟨v0, q⟩) (v : T) :
    Singly.setVal h (some a) v = Singly.hset h a ⟨v, q⟩ := by
  simp only [Singly.setVal]
  rw [ha]

theorem Singly.addOne_eq_of_size_eq {s : Singly.St T} {v : T}
    (hsz : s.lst.size = 0) :
    Singly.addOne s v =
      ⟨⟨Singly.hset s.mem.heap s.mem.alloc ⟨v, none⟩, s.mem.alloc + 1⟩,
        ⟨some s.mem.alloc, some s.mem.alloc, s.lst.size + 1⟩⟩ := by
  unfold Singly.addOne Singly.allocNode
  rw [if_pos hsz]

theorem Singly.addOne_eq_of_size_ne {s : Singly.St T} {v : T}
    (hsz : ¬ s.lst.size = 0) :
    Singly.addOne s v =
      ⟨⟨Singly.setNext (Singly.hset s.mem.heap s.mem.alloc ⟨v, none⟩)
          s.lst.last (some s.mem.alloc), s.mem.alloc + 1⟩,
        ⟨s.lst.first, some s.mem.alloc, s.lst.size + 1⟩⟩ := by
  unfold Singly.addOne Singly.allocNode
  rw [if_neg hsz]

theorem Singly.addOne_inv {s : Singly.St T} {cells : List (Nat × T)}
    (hinv : Singly.Inv s cells) (v : T) :
    Singly.Inv (Singly.addOne s v) (cells ++ [(s.mem.alloc, v)]) := by
  obtain ⟨hseg, hlast, hbound, hsize⟩ := hinv
  rcases List.eq_nil_or_concat cells with hc | ⟨init, bw, hc⟩
  · subst hc
    have hsz : s.lst.size = 0 := by simpa using hsize
    rw [Singly.addOne_eq_of_size_eq hsz]
    refine ⟨?_, ?_, ?_, ?_⟩
    · exact Singly.Seg.cons (Singly.hset_self _ _ _) (Singly.Seg.nil none)
    · simp [Singly.lastAddr, Singly.addrs]
    · simp
    · simp [hsz]
  · obtain ⟨b, w⟩ := bw
    rw [List.concat_eq_append] at hc
    subst hc
    have hsz : ¬ s.lst.size = 0 := by
      rw [hsize]
      simp only [List.length_append, List.length_cons, List.length_nil]
      push_cast
      omega
    have hblt : b < s.mem.alloc := hbound b (by simp)
    have hbne : b ≠ s.mem.alloc := Nat.ne_of_lt hblt
    have hnd := Singly.seg_nodup hseg
    have hbinit : b ∉ Singly.addrs init := by
      simp only [Singly.addrs_append, Singly.addrs_cons, Singly.addrs_nil,
        List.nodup_append] at hnd
      intro hmem
      exact hnd.2.2 hmem (by simp)
    obtain ⟨q1, hseg1, hseg2⟩ := Singly.Seg.split hseg
    obtain ⟨hq1, qn, hnodeb, htl⟩ := Singly.seg_cons_inv hseg2
    have hqn : qn = none := (Singly.seg_nil_inv htl).symm ▸ rfl
    rw [Singly.seg_nil_inv htl] at hnodeb
    rw [Singly.addOne_eq_of_size_ne hsz]
    have hlastb : s.lst.last = some b := by
      rw [hlast, Singly.lastAddr_concat]
    rw [hlastb]
    set A := s.mem.alloc with hA
    set h1 : Singly.Heap T := Singly.hset s.mem.heap A ⟨v, none⟩ with hh1
    have hh1b : h1 b = some ⟨w, none⟩ := by
      rw [hh1, Singly.hset_other _ _ hbne]
      exact hnodeb
    rw [Singly.setNext_eq hh1b (some A)]
    refine ⟨?_, ?_, ?_, ?_⟩
    · show Singly.Seg (Singly.hset h1 b ⟨w, some A⟩) s.lst.first
        ((init ++ [(b, w)]) ++ [(A, v)]) none
      have hseg1a : Singly.Seg (Singly.hset h1 b ⟨w, some A⟩) s.lst.first init
          (some b) := by
        refine Singly.Seg.hset_frame ?_ hbinit _
        rw [hh1]
        refine Singly.Seg.hset_frame (hq1 ▸ hseg1) ?_ _
        intro hmem
        have := hbound A (by simp; left; exact hmem)
        omega
      have hnodeb2 : Singly.hset h1 b ⟨w, some A⟩ b = some ⟨w, some A⟩ :=
        Singly.hset_self _ _ _
      have hnodeA : Singly.hset h1 b ⟨w, some A⟩ A = some ⟨v, none⟩ := by
        rw [Singly.hset_other _ _ (Ne.symm hbne), hh1, Singly.hset_self]
      have htailseg :
          Singly.Seg (Singly.hset h1 b ⟨w, some A⟩) (some b)
            ((b, w) :: (A, v) :: []) none :=
        Singly.Seg.cons hnodeb2
          (Singly.Seg.cons hnodeA (Singly.Seg.nil none))
      have hres := hseg1a.append htailseg
      simpa using hres
    · show some A = Singly.lastAddr ((init ++ [(b, w)]) ++ [(A, v)])
      rw [Singly.lastAddr_concat]
    · intro a hmem
      show a < A + 1
      simp only [Singly.addrs_append, Singly.addrs_cons, Singly.addrs_nil,
        List.mem_append, List.mem_cons, List.not_mem_nil, or_false] at hmem
      rcases hmem with (hm | hm) | hm
      · have := hbound a (by simp [hm])
        omega
      · subst hm
        omega
      · subst hm
        omega
    · show s.lst.size + 1 = _
      rw [hsize]
      simp only [List.length_append, List.length_cons, List.length_nil]
      push_cast
      omega

theorem Singly.Add_inv (values : List T) :
    ∀ {s : Singly.St T} {cells : List (Nat × T)}, Singly.Inv s cells →
      ∃ cells2, Singly.Inv (Singly.Add s values) cells2 ∧
        Singly.vals cells2 = Singly.vals cells ++ values := by
  induction values with
  | nil => exact fun hinv => ⟨_, hinv, by simp⟩
  | cons v rest ih =>
    intro s cells hinv
    obtain ⟨cells2, hinv2, hvals⟩ := ih (Singly.addOne_inv hinv v)
    refine ⟨cells2, hinv2, ?_⟩
    rw [hvals]
    simp

theorem Singly.emptySt_inv :
    Singly.Inv (⟨⟨fun _ => none, 0⟩, ⟨none, none, 0⟩⟩ : Singly.St T) [] :=
  ⟨Singly.Seg.nil none, rfl, by simp, rfl⟩

theorem Singly.New_inv (values : List T) :
    ∃ cells, Singly.Inv (Singly.New values) cells ∧
      Singly.vals cells = values := by
  unfold Singly.New
  by_cases h : values.length > 0
  · rw [if_pos h]
    obtain ⟨cells, hinv, hv⟩ := Singly.Add_inv values Singly.emptySt_inv
    exact ⟨cells, hinv, by simpa using hv⟩
  · rw [if_neg h]
    have : values = [] := by
      simpa using List.length_eq_zero.1 (by omega)
    exact ⟨[], Singly.emptySt_inv, by simp [this]⟩

theorem Singly.prependOne_eq (s : Singly.St T) (v : T) :
    Singly.prependOne s v =
      ⟨⟨Singly.hset s.mem.heap s.mem.alloc ⟨v, s.lst.first⟩, s.mem.alloc + 1⟩,
        ⟨some s.mem.alloc,
          if s.lst.size = 0 then some s.mem.alloc else s.lst.last,
          s.lst.size + 1⟩⟩ := rfl

theorem Singly.prependOne_inv {s : Singly.St T} {cells : List (Nat × T)}
    (hinv : Singly.Inv s cells) (v : T) :
    Singly.Inv (Singly.prependOne s v) ((s.mem.alloc, v) :: cells) := by
  obtain ⟨hseg, hlast, hbound, hsize⟩ := hinv
  rw [Singly.prependOne_eq]
  refine ⟨?_, ?_, ?_, ?_⟩
  · refine Singly.Seg.cons (Singly.hset_self _ _ _) ?_
    refine Singly.Seg.hset_frame hseg ?_ _
    intro hmem
    exact absurd (hbound _ hmem) (lt_irrefl _)
  · show (if s.lst.size = 0 then some s.mem.alloc else s.lst.last) = _
    by_cases hsz : s.lst.size = 0
    · have hc : cells = [] := by
        rw [hsize] at hsz
        exact List.length_eq_zero.1 (by exact_mod_cast hsz)
      subst hc
      rw [if_pos hsz]
      simp [Singly.lastAddr, Singly.addrs]
    · have hc : cells ≠ [] := by
        intro hx
        subst hx
        exact hsz (by simpa using hsize)
      rw [if_neg hsz, Singly.lastAddr_cons_of_ne_nil _ hc]
      exact hlast
  · intro a hmem
    show a < s.mem.alloc + 1
    simp only [Singly.addrs_cons] at hmem
    rcases List.mem_cons.1 hmem with hm | hm
    · subst hm
      omega
    · have := hbound a hm
      omega
  · show s.lst.size + 1 = _
    rw [hsize]
    push_cast [List.length_cons]
    omega

theorem Singly.Prepend_inv (values : List T) :
    ∀ {s : Singly.St T} {cells : List (Nat × T)}, Singly.Inv s cells →
      ∃ cells2, Singly.Inv (Singly.Prepend s values) cells2 ∧
        Singly.vals cells2 = values ++ Singly.vals cells := by
  induction values with
  | nil => exact fun hinv => ⟨_, hinv, by simp⟩
  | cons v rest ih =>
    intro s cells hinv
    obtain ⟨cells2, hinv2, hvals⟩ := ih hinv
    exact ⟨_, Singly.prependOne_inv hinv2 v, by simp [hvals]⟩

theorem Singly.collect_seg {h : Singly.Heap T} :
    ∀ {l : List (Nat × T)} {p : Option Nat}, Singly.Seg h p l none →
      Singly.collect h p l.length = Singly.vals l := by
  intro l
  induction l with
  | nil => intro p _; rfl
  | cons c rest ih =>
    intro p hs
    obtain ⟨hstart, q, hnode, htail⟩ := Singly.seg_cons_inv hs
    subst hstart
    show Singly.collect h (some c.1) (rest.length + 1) = _
    simp [Singly.collect, Singly.deref, hnode, ih htail]

theorem Singly.Values_inv {s : Singly.St T} {cells : List (Nat × T)}
    (hinv : Singly.Inv s cells) : (Singly.Values s).2 = Singly.vals cells := by
  have ht := hinv.size_toNat
  show Singly.collect s.mem.heap s.lst.first s.lst.size.toNat = _
  rw [ht]
  exact Singly.collect_seg hinv.1

theorem Singly.walkWithPrev_succ (h : Singly.Heap T) (prev cur : Option Nat)
    (n : Nat) :
    Singly.walkWithPrev h prev cur (n + 1) =
      (Singly.walk h cur n, Singly.walk h cur (n + 1)) := by
  induction n generalizing prev cur with
  | zero => rfl
  | succ n ih =>
    show Singly.walkWithPrev h cur (Singly.nextPtr h cur) (n + 1) = _
    rw [ih]
    rfl

@[simp] theorem Singly.addrs_take (k : Nat) (cells : List (Nat × T)) :
    Singly.addrs (cells.take k) = (Singly.addrs cells).take k := by
  simp [Singly.addrs]

@[simp] theorem Singly.addrs_drop (k : Nat) (cells : List (Nat × T)) :
    Singly.addrs (cells.drop k) = (Singly.addrs cells).drop k := by
  simp [Singly.addrs]

@[simp] theorem Singly.vals_take (k : Nat) (cells : List (Nat × T)) :
    Singly.vals (cells.take k) = (Singly.vals cells).take k := by
  simp [Singly.vals]

@[simp] theorem Singly.vals_drop (k : Nat) (cells : List (Nat × T)) :
    Singly.vals (cells.drop k) = (Singly.vals cells).drop k := by
  simp [Singly.vals]

theorem Singly.addrs_getElem? (cells : List (Nat × T)) (k : Nat) :
    (Singly.addrs cells)[k]? = (cells[k]?).map Prod.fst := by
  simp [Singly.addrs]

theorem Singly.addr_inj {cells : List (Nat × T)}
    (hnd : (Singly.addrs cells).Nodup) {k1 k2 a1 a2 : Nat} {v1 v2 : T}
    (h1 : cells[k1]? = some (a1, v1)) (h2 : cells[k2]? = some (a2, v2))
    (heq : a1 = a2) : k1 = k2 := by
  have e1 : (Singly.addrs cells)[k1]? = some a1 := by
    rw [Singly.addrs_getElem?, h1]
    rfl
  have e2 : (Singly.addrs cells)[k2]? = some a2 := by
    rw [Singly.addrs_getElem?, h2]
    rfl
  obtain ⟨hb1, hg1⟩ := List.getElem?_eq_some.1 e1
  obtain ⟨hb2, hg2⟩ := List.getElem?_eq_some.1 e2
  exact (@List.Nodup.getElem_inj_iff _ _ hnd _ hb1 _ hb2).1 (by rw [hg1, hg2, heq])

theorem Singly.lastAddr_eq_getElem? (cells : List (Nat × T)) :
    Singly.lastAddr cells = (Singly.addrs cells)[cells.length - 1]? := by
  simp [Singly.lastAddr, List.getLast?_eq_getElem?]

theorem Singly.vals_eraseIdx (cells : List (Nat × T)) (k : Nat) :
    Singly.vals (cells.eraseIdx k) = (Singly.vals cells).eraseIdx k := by
  rw [List.eraseIdx_eq_take_drop_succ, List.eraseIdx_eq_take_drop_succ]
  simp

theorem Singly.addrs_eraseIdx_subset (cells : List (Nat × T)) (k : Nat) :
    Singly.addrs (cells.eraseIdx k) ⊆ Singly.addrs cells := by
  rw [List.eraseIdx_eq_take_drop_succ]
  intro a ha
  simp only [Singly.addrs_append, Singly.addrs_take, Singly.addrs_drop,
    List.mem_append] at ha
  rcases ha with ha | ha
  · exact List.take_subset _ _ ha
  · exact List.drop_subset _ _ ha

theorem Singly.lastAddr_append_right (A B : List (Nat × T)) (hB : B ≠ []) :
    Singly.lastAddr (A ++ B) = Singly.lastAddr B := by
  have hne : Singly.addrs B ≠ [] := by
    intro hx
    exact hB (by simpa using congrArg List.length hx)
  unfold Singly.lastAddr
  rw [Singly.addrs_append, List.getLast?_append_of_ne_nil _ hne]

theorem Singly.nodup_disjoint_take_drop {l : List Nat} (hnd : l.Nodup)
    (m : Nat) : ∀ b ∈ l.take m, b ∉ l.drop m := by
  have h2 := hnd
  rw [← List.take_append_drop m l, List.nodup_append] at h2
  exact fun b hb hd => h2.2.2 hb hd

theorem Singly.nodup_getElem_not_mem_take {l : List Nat} (hnd : l.Nodup)
    {m : Nat} {b : Nat} (hb : l[m]? = some b) : b ∉ l.take m := by
  obtain ⟨hm, hg⟩ := List.getElem?_eq_some.1 hb
  intro hmem
  refine Singly.nodup_disjoint_take_drop hnd m b hmem ?_
  rw [List.drop_eq_getElem_cons hm]
  exact hg ▸ List.mem_cons_self _ _

theorem Singly.nodup_getElem_not_mem_drop {l : List Nat} (hnd : l.Nodup)
    {m : Nat} {b : Nat} (hb : l[m]? = some b) : b ∉ l.drop (m + 1) := by
  obtain ⟨hm, hg⟩ := List.getElem?_eq_some.1 hb
  intro hmem
  have hbtake : b ∈ l.take (m + 1) := by
    rw [List.take_succ, hb]
    simp
  exact Singly.nodup_disjoint_take_drop hnd (m + 1) b hbtake hmem

theorem Singly.getElem?_pair {cells : List (Nat × T)} {k : Nat}
    (hk : k < cells.length) : ∃ x y, cells[k]? = some (x, y) :=
  ⟨(cells.get ⟨k, hk⟩).1, (cells.get ⟨k, hk⟩).2, by
    simp [List.getElem?_eq_getElem hk]⟩

theorem Singly.Remove_eq {s : Singly.St T} {index : Int}
    (hsz : ¬ s.lst.size = 0) (hb : Singly.inBounds s.lst index = true) :
    Singly.Remove s index =
      (let pc := Singly.walkWithPrev s.mem.heap none s.lst.first index.toNat
       let first :=
         if pc.2 = s.lst.first then Singly.nextPtr s.mem.heap pc.2
         else s.lst.first
       let last := if pc.2 = s.lst.last then pc.1 else s.lst.last
       let heap :=
         if pc.1 ≠ none then
           Singly.setNext s.mem.heap pc.1 (Singly.nextPtr s.mem.heap pc.2)
         else s.mem.heap
       (⟨⟨heap, s.mem.alloc⟩, ⟨first, last, s.lst.size - 1⟩⟩, none)) := by
  unfold Singly.Remove
  rw [if_neg (by simp [Singly.IsEmpty, hsz]), if_neg (by simp [hb])]

theorem Singly.Remove_inv {s : Singly.St T} {cells : List (Nat × T)}
    (hinv : Singly.Inv s cells) {index : Int} (h0 : 0 ≤ index)
    (hlt : index < s.lst.size) :
    (Singly.Remove s index).2 = none ∧
      Singly.Inv (Singly.Remove s index).1 (cells.eraseIdx index.toNat) := by
  obtain ⟨hseg, hlast, hbound, hsize⟩ := hinv
  have hnd := Singly.seg_nodup hseg
  have hlen : index.toNat < cells.length := by
    rw [hsize] at hlt
    omega
  have hsz : ¬ s.lst.size = 0 := by
    rw [hsize]
    omega
  have hb : Singly.inBounds s.lst index = true := by
    simp only [Singly.inBounds, Bool.and_eq_true, decide_eq_true_eq]
    exact ⟨h0, hlt⟩
  rw [Singly.Remove_eq hsz hb]
  refine ⟨rfl, ?_⟩
  set k := index.toNat with hk
  clear_value k
  clear hk hb h0 hlt
  dsimp only
  cases k with
  | zero =>
    cases cells with
    | nil => simp at hlen
    | cons c0 rest =>
      obtain ⟨hfirst0, q, hnode0, hrest⟩ := Singly.seg_cons_inv hseg
      rw [show Singly.walkWithPrev s.mem.heap none s.lst.first 0 =
        ((none : Option Nat), s.lst.first) from rfl]
      dsimp only
      have hc1 : ¬ ((none : Option Nat) ≠ none) := fun hcon => hcon rfl
      rw [if_neg hc1, if_pos rfl]
      have hnext0 : Singly.nextPtr s.mem.heap s.lst.first = q := by
        rw [hfirst0]
        simp [Singly.nextPtr, Singly.deref, hnode0]
      by_cases hrnil : rest = []
      · subst hrnil
        have hq : q = none := Singly.seg_nil_inv hrest
        have hcond : s.lst.first = s.lst.last := by
          rw [hfirst0, hlast]
          simp [Singly.lastAddr, Singly.addrs]
        rw [if_pos hcond]
        refine ⟨?_, ?_, ?_, ?_⟩
        · show Singly.Seg s.mem.heap (Singly.nextPtr s.mem.heap s.lst.first)
            (([c0] : List (Nat × T)).eraseIdx 0) none
          rw [hnext0, hq]
          exact Singly.Seg.nil none
        · rfl
        · simp [List.eraseIdx]
        · rw [hsize]
          simp [List.eraseIdx]
      · have hcond : ¬ s.lst.first = s.lst.last := by
          rw [hfirst0, hlast, Singly.lastAddr_cons_of_ne_nil _ hrnil]
          intro hcon
          have hLmem := List.mem_of_getLast?_eq_some
            (show (Singly.addrs rest).getLast? = some c0.1 from hcon.symm)
          have hnotin : c0.1 ∉ Singly.addrs rest := by
            simpa using (List.nodup_cons.1 (by simpa using hnd)).1
          exact hnotin hLmem
        rw [if_neg hcond]
        refine ⟨?_, ?_, ?_, ?_⟩
        · show Singly.Seg s.mem.heap (Singly.nextPtr s.mem.heap s.lst.first)
            ((c0 :: rest).eraseIdx 0) none
          rw [hnext0]
          simpa [List.eraseIdx] using hrest
        · rw [hlast, Singly.lastAddr_cons_of_ne_nil _ hrnil]
          rfl
        · intro a ha
          refine hbound a ?_
          simp only [List.eraseIdx] at ha
          simp [ha]
        · show s.lst.size - 1 = ((rest.length : Int))
          rw [hsize]
          push_cast [List.length_cons]
          omega
  | succ m =>
    obtain ⟨b, w, qb, hgetb, hwalkb, hnodeb, hwalkb1, hsegb⟩ :=
      Singly.seg_at hseg (k := m) (by omega)
    obtain ⟨a, v, qa, hgeta, hwalka, hnodea, hwalka1, hsega⟩ :=
      Singly.seg_at hseg (k := m + 1) hlen
    obtain ⟨a0, v0, q0, hget0, hwalk0, hnode0, hwalk01, hseg0⟩ :=
      Singly.seg_at hseg (k := 0) (by omega)
    have hfirsta0 : s.lst.first = some a0 := hwalk0
    have hqb : qb = some a := by rw [← hwalkb1, hwalka]
    rw [Singly.walkWithPrev_succ]
    dsimp only
    rw [hwalkb, hwalka]
    have hcondf : ¬ ((some a : Option Nat) = s.lst.first) := by
      rw [hfirsta0]
      intro hcon
      have := Singly.addr_inj hnd hgeta hget0 (Option.some.inj hcon)
      omega
    have hcondh : (some b : Option Nat) ≠ none := by simp
    rw [if_neg hcondf, if_pos hcondh]
    have hnexta : Singly.nextPtr s.mem.heap (some a) = qa := by
      simp [Singly.nextPtr, Singly.deref, hnodea]
    rw [hnexta, Singly.setNext_eq hnodeb qa]
    obtain ⟨aL, vL, hgetL⟩ : ∃ x y, cells[cells.length - 1]? = some (x, y) :=
      Singly.getElem?_pair (by omega)
    have hlastL : s.lst.last = some aL := by
      rw [hlast, Singly.lastAddr_eq_getElem?, Singly.addrs_getElem?, hgetL]
      rfl
    have htake := (Singly.seg_walk_split hseg m (by omega)).1
    rw [hwalkb] at htake
    have haddrb : (Singly.addrs cells)[m]? = some b := by
      rw [Singly.addrs_getElem?, hgetb]
      rfl
    have hbnotintake : b ∉ Singly.addrs (cells.take m) := by
      rw [Singly.addrs_take]
      exact Singly.nodup_getElem_not_mem_take hnd haddrb
    have hbnotindrop : b ∉ Singly.addrs (cells.drop (m + 1 + 1)) := by
      rw [Singly.addrs_drop]
      intro hmem
      exact Singly.nodup_getElem_not_mem_drop hnd haddrb
        (List.drop_subset_drop_left _ (by omega) hmem)
    have hseg2 : Singly.Seg (Singly.hset s.mem.heap b ⟨w, qa⟩) s.lst.first
        (cells.eraseIdx (m + 1)) none := by
      have hpiece1 := htake.hset_frame hbnotintake (⟨w, qa⟩ : Singly.Node T)
      have hpiece3 := hsega.hset_frame hbnotindrop (⟨w, qa⟩ : Singly.Node T)
      have hpiece2 : Singly.Seg (Singly.hset s.mem.heap b ⟨w, qa⟩) (some b)
          ((b, w) :: cells.drop (m + 1 + 1)) none :=
        Singly.Seg.cons (Singly.hset_self _ _ _) hpiece3
      have hall := hpiece1.append hpiece2
      rw [List.eraseIdx_eq_take_drop_succ, List.take_succ, hgetb]
      simpa using hall
    refine ⟨hseg2, ?_, ?_, ?_⟩
    · by_cases hkend : m + 1 = cells.length - 1
      · have haL : a = aL := by
          rw [hkend] at hgeta
          rw [hgeta] at hgetL
          exact congrArg Prod.fst (Option.some.inj hgetL)
        have hcondl : (some a : Option Nat) = s.lst.last := by
          rw [hlastL, haL]
        rw [if_pos hcondl]
        have hdropnil : cells.drop (m + 1 + 1) = [] :=
          List.drop_eq_nil_of_le (by omega)
        rw [List.eraseIdx_eq_take_drop_succ, hdropnil, List.append_nil,
          List.take_succ, hgetb]
        rw [show ((some (b, w) : Option (Nat × T)).toList = [(b, w)]) from rfl]
        rw [Singly.lastAddr_concat]
      · have hcond : ¬ ((some a : Option Nat) = s.lst.last) := by
          rw [hlastL]
          intro hcon
          have := Singly.addr_inj hnd hgeta hgetL (Option.some.inj hcon)
          omega
        rw [if_neg hcond, hlast]
        have hdropne : cells.drop (m + 1 + 1) ≠ [] := by
          intro hx
          have := congrArg List.length hx
          simp at this
          omega
        rw [List.eraseIdx_eq_take_drop_succ,
          Singly.lastAddr_append_right _ _ hdropne]
        conv_lhs => rw [← List.take_append_drop (m + 1 + 1) cells]
        rw [Singly.lastAddr_append_right _ _ hdropne]
    · intro x hx
      exact hbound x (Singly.addrs_eraseIdx_subset _ _ hx)
    · have hEl : (cells.eraseIdx (m + 1)).length = cells.length - 1 := by
        rw [List.length_eraseIdx]
        simp [hlen]
      show s.lst.size - 1 = ((cells.eraseIdx (m + 1)).length : Int)
      rw [hsize, hEl]
      omega

theorem Singly.addrs_set_fst (cells : List (Nat × T)) (k : Nat) (c : Nat × T) :
    Singly.addrs (cells.set k c) = (Singly.addrs cells).set k c.1 := by
  unfold Singly.addrs
  rw [List.map_set]

theorem Singly.addrs_set {cells : List (Nat × T)} {k a : Nat} {v0 : T}
    (hget : cells[k]? = some (a, v0)) (v : T) :
    Singly.addrs (cells.set k (a, v)) = Singly.addrs cells := by
  obtain ⟨hk, hgk⟩ := List.getElem?_eq_some.1 hget
  rw [Singly.addrs_set_fst]
  refine List.ext_getElem? ?_
  intro n
  by_cases hn : n = k
  · subst hn
    rw [List.getElem?_set_self (by simpa using hk)]
    rw [Singly.addrs_getElem? (T := T), hget]
    rfl
  · exact List.getElem?_set_ne (fun e => hn e.symm)

theorem Singly.vals_set (cells : List (Nat × T)) (k a : Nat) (v : T) :
    Singly.vals (cells.set k (a, v)) = (Singly.vals cells).set k v := by
  unfold Singly.vals
  rw [List.map_set]

theorem Singly.seg_setcell {h : Singly.Heap T} {p : Option Nat}
    {cells : List (Nat × T)} (hs : Singly.Seg h p cells none) {k : Nat}
    {a : Nat} {v0 : T} (hget : cells[k]? = some (a, v0)) (v : T) :
    ∃ q, h a = some ⟨v0, q⟩ ∧
      Singly.Seg (Singly.hset h a ⟨v, q⟩) p (cells.set k (a, v)) none := by
  have hnd := Singly.seg_nodup hs
  obtain ⟨hk, hgk⟩ := List.getElem?_eq_some.1 hget
  obtain ⟨a2, v2, q, hget2, hwalk, hnode, hwalk1, hdrop⟩ := Singly.seg_at hs hk
  rw [hget] at hget2
  have hEq := Option.some.inj hget2
  have ha : a = a2 := congrArg Prod.fst hEq
  have hv : v0 = v2 := congrArg Prod.snd hEq
  rw [← ha] at hwalk hnode
  rw [← hv] at hnode
  refine ⟨q, hnode, ?_⟩
  have haddra : (Singly.addrs cells)[k]? = some a := by
    rw [Singly.addrs_getElem?, hget]
    rfl
  have htake := (Singly.seg_walk_split hs k hk.le).1
  rw [hwalk] at htake
  have hnotintake : a ∉ Singly.addrs (cells.take k) := by
    rw [Singly.addrs_take]
    exact Singly.nodup_getElem_not_mem_take hnd haddra
  have hnotindrop : a ∉ Singly.addrs (cells.drop (k + 1)) := by
    rw [Singly.addrs_drop]
    exact Singly.nodup_getElem_not_mem_drop hnd haddra
  have hpiece1 := htake.hset_frame hnotintake (⟨v, q⟩ : Singly.Node T)
  have hpiece3 := hdrop.hset_frame hnotindrop (⟨v, q⟩ : Singly.Node T)
  have hpiece2 : Singly.Seg (Singly.hset h a ⟨v, q⟩) (some a)
      ((a, v) :: cells.drop (k + 1)) none :=
    Singly.Seg.cons (Singly.hset_self _ _ _) hpiece3
  have hall := hpiece1.append hpiece2
  rw [List.set_eq_take_append_cons_drop, if_pos (show k < cells.length from hk)]
  exact hall

theorem Singly.Set_eq {s : Singly.St T} {index : Int} {value : T}
    (hb : Singly.inBounds s.lst index = true) :
    Singly.Set s index value =
      (⟨⟨Singly.setVal s.mem.heap
          (Singly.walk s.mem.heap s.lst.first index.toNat) value,
          s.mem.alloc⟩, s.lst⟩, none) := by
  unfold Singly.Set
  rw [if_neg (by simp [hb])]

theorem Singly.Set_inv {s : Singly.St T} {cells : List (Nat × T)}
    (hinv : Singly.Inv s cells) {index : Int} (h0 : 0 ≤ index)
    (hlt : index < s.lst.size) (value : T) :
    (Singly.Set s index value).2 = none ∧
      ∃ cells2, Singly.Inv (Singly.Set s index value).1 cells2 ∧
        Singly.vals cells2 = (Singly.vals cells).set index.toNat value := by
  obtain ⟨hseg, hlast, hbound, hsize⟩ := hinv
  have hlen : index.toNat < cells.length := by
    rw [hsize] at hlt
    omega
  have hb : Singly.inBounds s.lst index = true := by
    simp only [Singly.inBounds, Bool.and_eq_true, decide_eq_true_eq]
    exact ⟨h0, hlt⟩
  rw [Singly.Set_eq hb]
  refine ⟨rfl, ?_⟩
  obtain ⟨a, v0, hget⟩ : ∃ x y, cells[index.toNat]? = some (x, y) :=
    Singly.getElem?_pair hlen
  obtain ⟨q, hnode, hseg2⟩ := Singly.seg_setcell hseg hget value
  obtain ⟨a2, v2, q2, hget2, hwalk, hnode2, _, _⟩ := Singly.seg_at hseg hlen
  rw [hget] at hget2
  have hEq := Option.some.inj hget2
  have ha : a = a2 := congrArg Prod.fst hEq
  rw [← ha] at hwalk
  refine ⟨cells.set index.toNat (a, value), ?_, Singly.vals_set _ _ _ _⟩
  rw [hwalk, Singly.setVal_eq hnode value]
  refine ⟨hseg2, ?_, ?_, ?_⟩
  · show s.lst.last = _
    rw [hlast]
    unfold Singly.lastAddr
    rw [Singly.addrs_set hget]
  · intro x hx
    rw [Singly.addrs_set hget] at hx
    exact hbound x hx
  · show s.lst.size = _
    rw [hsize]
    simp

theorem Singly.vals_getElem? (cells : List (Nat × T)) (k : Nat) :
    (Singly.vals cells)[k]? = (cells[k]?).map Prod.snd := by
  simp [Singly.vals]

theorem Singly.findTwo_go {h : Singly.Heap T} {i j : Int} {ai aj : Nat} :
    ∀ (cells : List (Nat × T)) (p : Option Nat) (n : Int)
      (node1 node2 : Option Nat) (fuel : Nat),
      Singly.Seg h p cells none → cells.length + 1 ≤ fuel →
      (if n ≤ i then node1 = none ∧ ∃ v, cells[(i - n).toNat]? = some (ai, v)
        else node1 = some ai) →
      (if n ≤ j then node2 = none ∧ ∃ v, cells[(j - n).toNat]? = some (aj, v)
        else node2 = some aj) →
      Singly.findTwo h i j p n node1 node2 fuel = (some ai, some aj) := by
  intro cells
  induction cells with
  | nil =>
    intro p n node1 node2 fuel hs hfuel hc1 hc2
    have hp : p = none := Singly.seg_nil_inv hs
    have h1 : node1 = some ai := by
      by_cases hn : n ≤ i
      · rw [if_pos hn] at hc1
        obtain ⟨-, v, hv⟩ := hc1
        simp at hv
      · rw [if_neg hn] at hc1
        exact hc1
    have h2 : node2 = some aj := by
      by_cases hn : n ≤ j
      · rw [if_pos hn] at hc2
        obtain ⟨-, v, hv⟩ := hc2
        simp at hv
      · rw [if_neg hn] at hc2
        exact hc2
    cases fuel with
    | zero => omega
    | succ f =>
      subst hp
      show Singly.findTwo h i j none n node1 node2 (f + 1) = _
      simp only [Singly.findTwo]
      rw [if_neg (by intro hcon; exact hcon.1 rfl)]
      rw [h1, h2]
  | cons c rest ih =>
    intro p n node1 node2 fuel hs hfuel hc1 hc2
    obtain ⟨hp, q, hnode, htail⟩ := Singly.seg_cons_inv hs
    subst hp
    cases fuel with
    | zero => simp at hfuel
    | succ f =>
      have hfuel2 : rest.length + 1 ≤ f := by
        simp at hfuel
        omega
      have hnext : Singly.nextPtr h (some c.1) = q := by
        simp [Singly.nextPtr, Singly.deref, hnode]
      by_cases hcond : node1 = none ∨ node2 = none
      · simp only [Singly.findTwo]
        rw [if_pos ⟨by simp, hcond⟩]
        rw [hnext]
        refine ih q (n + 1) (if i = n then some c.1 else node1)
          (if j = n then some c.1 else node2) f htail hfuel2 ?_ ?_
        · by_cases hin : i = n
          · rw [if_neg (by omega), if_pos hin]
            rw [if_pos (by omega)] at hc1
            obtain ⟨-, v, hv⟩ := hc1
            rw [show (i - n).toNat = 0 by omega] at hv
            rw [List.getElem?_cons_zero] at hv
            rw [Option.some.inj hv]
          · rw [if_neg hin]
            by_cases hni : n ≤ i
            · rw [if_pos (by omega)]
              rw [if_pos hni] at hc1
              obtain ⟨hn1, v, hv⟩ := hc1
              refine ⟨hn1, v, ?_⟩
              rw [show (i - n).toNat = (i - (n + 1)).toNat + 1 by omega,
                List.getElem?_cons_succ] at hv
              exact hv
            · rw [if_neg (by omega)]
              rw [if_neg hni] at hc1
              exact hc1
        · by_cases hjn : j = n
          · rw [if_neg (by omega), if_pos hjn]
            rw [if_pos (by omega)] at hc2
            obtain ⟨-, v, hv⟩ := hc2
            rw [show (j - n).toNat = 0 by omega] at hv
            rw [List.getElem?_cons_zero] at hv
            rw [Option.some.inj hv]
          · rw [if_neg hjn]
            by_cases hnj : n ≤ j
            · rw [if_pos (by omega)]
              rw [if_pos hnj] at hc2
              obtain ⟨hn2, v, hv⟩ := hc2
              refine ⟨hn2, v, ?_⟩
              rw [show (j - n).toNat = (j - (n + 1)).toNat + 1 by omega,
                List.getElem?_cons_succ] at hv
              exact hv
            · rw [if_neg (by omega)]
              rw [if_neg hnj] at hc2
              exact hc2
      · have hne1 : ¬ node1 = none := fun e => hcond (Or.inl e)
        have hne2 : ¬ node2 = none := fun e => hcond (Or.inr e)
        have h1 : node1 = some ai := by
          by_cases hn : n ≤ i
          · rw [if_pos hn] at hc1
            exact absurd hc1.1 hne1
          · rw [if_neg hn] at hc1
            exact hc1
        have h2 : node2 = some aj := by
          by_cases hn : n ≤ j
          · rw [if_pos hn] at hc2
            exact absurd hc2.1 hne2
          · rw [if_neg hn] at hc2
            exact hc2
        simp only [Singly.findTwo]
        rw [if_neg (fun hcon => hcond hcon.2)]
        rw [h1, h2]

theorem Singly.findTwo_spec {h : Singly.Heap T} {i j : Int}
    {cells : List (Nat × T)} {p : Option Nat} (hs : Singly.Seg h p cells none)
    {ai aj : Nat} {vi vj : T} (hgi : cells[i.toNat]? = some (ai, vi))
    (hgj : cells[j.toNat]? = some (aj, vj)) (h0i : 0 ≤ i) (h0j : 0 ≤ j)
    {fuel : Nat} (hfuel : cells.length + 1 ≤ fuel) :
    Singly.findTwo h i j p 0 none none fuel = (some ai, some aj) := by
  refine Singly.findTwo_go cells p 0 none none fuel hs hfuel ?_ ?_
  · rw [if_pos h0i]
    exact ⟨rfl, vi, by rw [show (i - 0).toNat = i.toNat by omega]; exact hgi⟩
  · rw [if_pos h0j]
    exact ⟨rfl, vj, by rw [show (j - 0).toNat = j.toNat by omega]; exact hgj⟩

theorem Singly.Swap_eq [Inhabited T] {s : Singly.St T} {i j : Int}
    (hbi : Singly.inBounds s.lst i = true)
    (hbj : Singly.inBounds s.lst j = true) (hij : ¬ i = j) :
    Singly.Swap s i j =
      (let nn := Singly.findTwo s.mem.heap i j s.lst.first 0 none none
          (s.lst.size.toNat + 1)
       let v1 := Singly.valAt s.mem.heap nn.1
       let v2 := Singly.valAt s.mem.heap nn.2
       let h1 := Singly.setVal s.mem.heap nn.1 v2
       let h2 := Singly.setVal h1 nn.2 v1
       (⟨⟨h2, s.mem.alloc⟩, s.lst⟩, none)) := by
  unfold Singly.Swap
  rw [if_neg (by simp [hbi, hbj]), if_neg hij]

theorem Singly.Swap_inv [Inhabited T] {s : Singly.St T}
    {cells : List (Nat × T)} (hinv : Singly.Inv s cells) {i j : Int}
    (h0i : 0 ≤ i) (hi : i < s.lst.size) (h0j : 0 ≤ j) (hj : j < s.lst.size)
    (hij : i ≠ j) :
    (Singly.Swap s i j).2 = none ∧
      ∃ cells2, Singly.Inv (Singly.Swap s i j).1 cells2 ∧
        Singly.vals cells2 =
          ((Singly.vals cells).set i.toNat
              ((Singly.vals cells).getD j.toNat default)).set j.toNat
            ((Singly.vals cells).getD i.toNat default) := by
  obtain ⟨hseg, hlast, hbound, hsize⟩ := hinv
  have hnd := Singly.seg_nodup hseg
  have hleni : i.toNat < cells.length := by
    rw [hsize] at hi
    omega
  have hlenj : j.toNat < cells.length := by
    rw [hsize] at hj
    omega
  have hbi : Singly.inBounds s.lst i = true := by
    simp only [Singly.inBounds, Bool.and_eq_true, decide_eq_true_eq]
    exact ⟨h0i, hi⟩
  have hbj : Singly.inBounds s.lst j = true := by
    simp only [Singly.inBounds, Bool.and_eq_true, decide_eq_true_eq]
    exact ⟨h0j, hj⟩
  rw [Singly.Swap_eq hbi hbj hij]
  dsimp only
  obtain ⟨ai, vi, hgi⟩ : ∃ x y, cells[i.toNat]? = some (x, y) :=
    Singly.getElem?_pair hleni
  obtain ⟨aj, vj, hgj⟩ : ∃ x y, cells[j.toNat]? = some (x, y) :=
    Singly.getElem?_pair hlenj
  have hfuel : cells.length + 1 ≤ s.lst.size.toNat + 1 := by
    rw [hsize]
    omega
  rw [Singly.findTwo_spec hseg hgi hgj h0i h0j hfuel]
  dsimp only
  obtain ⟨qi, hnodei, hseg1⟩ := Singly.seg_setcell hseg hgi vj
  have hv1 : Singly.valAt s.mem.heap (some ai) = vi := by
    simp [Singly.valAt, Singly.deref, hnodei]
  have hij2 : i.toNat ≠ j.toNat := by omega
  have hgj1 : (cells.set i.toNat (ai, vj))[j.toNat]? = some (aj, vj) := by
    rw [List.getElem?_set_ne hij2]
    exact hgj
  obtain ⟨qj, hnodej1, hseg2⟩ := Singly.seg_setcell hseg1 hgj1 vi
  have hajne : aj ≠ ai := by
    intro e
    exact hij2 (Singly.addr_inj hnd hgi hgj e.symm)
  have hnodej : s.mem.heap aj = some ⟨vj, qj⟩ := by
    have he := Singly.hset_other s.mem.heap (⟨vj, qi⟩ : Singly.Node T) hajne
    rw [← he]
    exact hnodej1
  have hv2 : Singly.valAt s.mem.heap (some aj) = vj := by
    simp [Singly.valAt, Singly.deref, hnodej]
  rw [hv1, hv2, Singly.setVal_eq hnodei vj, Singly.setVal_eq hnodej1 vi]
  refine ⟨rfl, (cells.set i.toNat (ai, vj)).set j.toNat (aj, vi), ?_, ?_⟩
  · refine ⟨hseg2, ?_, ?_, ?_⟩
    · show s.lst.last = _
      rw [hlast]
      unfold Singly.lastAddr
      rw [Singly.addrs_set hgj1, Singly.addrs_set hgi]
    · intro x hx
      rw [Singly.addrs_set hgj1, Singly.addrs_set hgi] at hx
      exact hbound x hx
    · show s.lst.size = _
      rw [hsize]
      simp
  · rw [Singly.vals_set, Singly.vals_set]
    have hdj : (Singly.vals cells).getD j.toNat default = vj := by
      rw [List.getD_eq_getElem?_getD, Singly.vals_getElem?, hgj]
      rfl
    have hdi : (Singly.vals cells).getD i.toNat default = vi := by
      rw [List.getD_eq_getElem?_getD, Singly.vals_getElem?, hgi]
      rfl
    rw [hdj, hdi]

theorem Singly.addr_mem {cells : List (Nat × T)} {m b : Nat} {w : T}
    (hget : cells[m]? = some (b, w)) : b ∈ Singly.addrs cells := by
  have := List.getElem?_mem hget
  exact List.mem_map.2 ⟨(b, w), this, rfl⟩

theorem Singly.spliceLoop_spec :
    ∀ (values : List T) (m : Singly.Mem T) (b : Nat) (w : T) (x : Option Nat),
      m.heap b = some ⟨w, x⟩ → b < m.alloc →
      ∃ newcells : List (Nat × T),
        Singly.vals newcells = values ∧
        (∀ a ∈ Singly.addrs newcells,
          m.alloc ≤ a ∧ a < (Singly.spliceLoop m (some b) values).1.alloc) ∧
        (Singly.spliceLoop m (some b) values).1.alloc =
          m.alloc + values.length ∧
        (∀ q : Option Nat,
          Singly.Seg
            (Singly.setNext (Singly.spliceLoop m (some b) values).1.heap
              (Singly.spliceLoop m (some b) values).2 q)
            (some b) ((b, w) :: newcells) q) ∧
        (∀ q : Option Nat, ∀ c, c < m.alloc → c ≠ b →
          Singly.setNext (Singly.spliceLoop m (some b) values).1.heap
            (Singly.spliceLoop m (some b) values).2 q c = m.heap c) := by
  intro values
  induction values with
  | nil =>
    intro m b w x hnode hblt
    refine ⟨[], rfl, by simp, by simp [Singly.spliceLoop], ?_, ?_⟩
    · intro q
      show Singly.Seg (Singly.setNext m.heap (some b) q) (some b) [(b, w)] q
      rw [Singly.setNext_eq hnode q]
      exact Singly.Seg.cons (Singly.hset_self _ _ _) (Singly.Seg.nil q)
    · intro q c hc hcb
      show Singly.setNext m.heap (some b) q c = m.heap c
      rw [Singly.setNext_eq hnode q]
      exact Singly.hset_other _ _ hcb
  | cons v rest ih =>
    intro m b w x hnode hblt
    have hbne : b ≠ m.alloc := Nat.ne_of_lt hblt
    have hh1b : Singly.hset m.heap m.alloc ⟨v, none⟩ b = some ⟨w, x⟩ := by
      rw [Singly.hset_other _ _ hbne]
      exact hnode
    set m1 : Singly.Mem T :=
      ⟨Singly.hset (Singly.hset m.heap m.alloc ⟨v, none⟩) b ⟨w, some m.alloc⟩,
        m.alloc + 1⟩ with hm1
    have hsplice : Singly.spliceLoop m (some b) (v :: rest) =
        Singly.spliceLoop m1 (some m.alloc) rest := by
      show Singly.spliceLoop
        ⟨Singly.setNext (Singly.hset m.heap m.alloc ⟨v, none⟩) (some b)
          (some m.alloc), m.alloc + 1⟩ (some m.alloc) rest = _
      rw [Singly.setNext_eq hh1b]
    have hm1node : m1.heap m.alloc = some ⟨v, none⟩ := by
      rw [hm1]
      show Singly.hset _ b _ m.alloc = _
      rw [Singly.hset_other _ _ (Ne.symm hbne), Singly.hset_self]
    have hm1alloc : m1.alloc = m.alloc + 1 := rfl
    have hm1lt : m.alloc < m1.alloc := by
      rw [hm1alloc]
      omega
    obtain ⟨newcells, hvals, hrange, halloc, hsegs, hagree⟩ :=
      ih m1 m.alloc v none hm1node hm1lt
    rw [hsplice]
    refine ⟨(m.alloc, v) :: newcells, by simp [hvals], ?_, ?_, ?_, ?_⟩
    · intro a ha
      simp only [Singly.addrs_cons, List.mem_cons] at ha
      rcases ha with rfl | ha
      · refine ⟨le_refl _, ?_⟩
        rw [halloc, hm1alloc]
        omega
      · obtain ⟨h1, h2⟩ := hrange a ha
        rw [hm1alloc] at h1
        exact ⟨by omega, h2⟩
    · rw [halloc, hm1alloc]
      simp
      omega
    · intro q
      refine Singly.Seg.cons ?_ (hsegs q)
      rw [hagree q b (by omega) hbne, hm1]
      exact Singly.hset_self _ _ _
    · intro q c hc hcb
      rw [hagree q c (by rw [hm1alloc]; omega) (by omega), hm1]
      show Singly.hset _ b _ c = _
      rw [Singly.hset_other _ _ hcb, Singly.hset_other _ _ (by omega)]

theorem Singly.Insert_fail {s : Singly.St T} {index : Int}
    (hnb : Singly.inBounds s.lst index = false)
    (hne : ¬ index = s.lst.size) (values : List T) :
    Singly.Insert s index values = (s, some .indexOutOfBounds) := by
  unfold Singly.Insert
  rw [if_pos (by simp [hnb]), if_neg hne]

theorem Singly.Insert_eq_interior {s : Singly.St T} {index : Int}
    (hb : Singly.inBounds s.lst index = true) (hne0 : ¬ index = 0)
    (values : List T) :
    Singly.Insert s index values =
      (let pc := Singly.walkWithPrev s.mem.heap none s.lst.first index.toNat
       let oldNext := Singly.nextPtr s.mem.heap pc.1
       let mp := Singly.spliceLoop s.mem pc.1 values
       (⟨⟨Singly.setNext mp.1.heap mp.2 oldNext, mp.1.alloc⟩,
          ⟨s.lst.first, s.lst.last, s.lst.size + values.length⟩⟩, none)) := by
  unfold Singly.Insert
  rw [if_neg (by simp [hb]), if_neg hne0]

theorem Singly.Insert_interior_inv {s : Singly.St T} {cells : List (Nat × T)}
    (hinv : Singly.Inv s cells) {index : Int} (hge1 : 1 ≤ index)
    (hlt : index < s.lst.size) (values : List T) :
    (Singly.Insert s index values).2 = none ∧
      ∃ cells2, Singly.Inv (Singly.Insert s index values).1 cells2 ∧
        Singly.vals cells2 = (Singly.vals cells).take index.toNat ++ values ++
          (Singly.vals cells).drop index.toNat := by
  obtain ⟨hseg, hlast, hbound, hsize⟩ := hinv
  have hnd := Singly.seg_nodup hseg
  have hlen : index.toNat < cells.length := by
    rw [hsize] at hlt
    omega
  have hb : Singly.inBounds s.lst index = true := by
    simp only [Singly.inBounds, Bool.and_eq_true, decide_eq_true_eq]
    exact ⟨by omega, hlt⟩
  rw [Singly.Insert_eq_interior hb (by omega) values]
  dsimp only
  obtain ⟨m, hm⟩ : ∃ m, index.toNat = m + 1 := ⟨index.toNat - 1, by omega⟩
  rw [hm, Singly.walkWithPrev_succ]
  dsimp only
  obtain ⟨b, w, qb, hgetb, hwalkb, hnodeb, hwalkb1, hsegb⟩ :=
    Singly.seg_at hseg (k := m) (by omega)
  rw [hwalkb]
  have hnextb : Singly.nextPtr s.mem.heap (some b) = qb := by
    simp [Singly.nextPtr, Singly.deref, hnodeb]
  rw [hnextb]
  have hblt : b < s.mem.alloc := hbound b (Singly.addr_mem hgetb)
  obtain ⟨newcells, hvals, hrange, halloc, hsegs, hagree⟩ :=
    Singly.spliceLoop_spec values s.mem b w qb hnodeb hblt
  refine ⟨rfl, cells.take m ++ (b, w) :: (newcells ++ cells.drop (m + 1)),
    ?_, ?_⟩
  · have haddrb : (Singly.addrs cells)[m]? = some b := by
      rw [Singly.addrs_getElem?, hgetb]
      rfl
    have hbnotintake : b ∉ Singly.addrs (cells.take m) := by
      rw [Singly.addrs_take]
      exact Singly.nodup_getElem_not_mem_take hnd haddrb
    have hbnotindrop : b ∉ Singly.addrs (cells.drop (m + 1)) := by
      rw [Singly.addrs_drop]
      exact Singly.nodup_getElem_not_mem_drop hnd haddrb
    have htake := (Singly.seg_walk_split hseg m (by omega)).1
    rw [hwalkb] at htake
    set H := Singly.setNext (Singly.spliceLoop s.mem (some b) values).1.heap
      (Singly.spliceLoop s.mem (some b) values).2 qb with hH
    have htakeH : Singly.Seg H s.lst.first (cells.take m) (some b) := by
      refine htake.agree ?_
      intro c hc
      refine hagree qb c (hbound c ?_) ?_
      · rw [Singly.addrs_take] at hc
        exact List.take_subset _ _ hc
      · intro e
        exact hbnotintake (e ▸ hc)
    have hdropH : Singly.Seg H qb (cells.drop (m + 1)) none := by
      refine hsegb.agree ?_
      intro c hc
      refine hagree qb c (hbound c ?_) ?_
      · rw [Singly.addrs_drop] at hc
        exact List.drop_subset _ _ hc
      · intro e
        exact hbnotindrop (e ▸ hc)
    have hmid := (hsegs qb).append hdropH
    have hall := htakeH.append hmid
    refine ⟨by simpa using hall, ?_, ?_, ?_⟩
    · show s.lst.last = _
      rw [hlast]
      have hdropne : cells.drop (m + 1) ≠ [] := by
        intro hx
        have := congrArg List.length hx
        simp at this
        omega
      rw [Singly.lastAddr_append_right _ _ (by simp),
        Singly.lastAddr_cons_of_ne_nil _ (by simp [hdropne]),
        Singly.lastAddr_append_right _ _ hdropne]
      conv_lhs => rw [← List.take_append_drop (m + 1) cells]
      rw [Singly.lastAddr_append_right _ _ hdropne]
    · intro c hc
      show c < (Singly.spliceLoop s.mem (some b) values).1.alloc
      rw [halloc]
      simp only [Singly.addrs_append, Singly.addrs_cons, List.mem_append,
        List.mem_cons] at hc
      rcases hc with hc | hc | hc
      · have := hbound c (by
          rw [Singly.addrs_take] at hc
          exact List.take_subset _ _ hc)
        omega
      · subst hc
        omega
      · rcases hc with hc | hc
        · have := (hrange c hc).2
          rw [halloc] at this
          exact this
        · have := hbound c (by
            rw [Singly.addrs_drop] at hc
            exact List.drop_subset _ _ hc)
          omega
    · show s.lst.size + (values.length : Int) = _
      rw [hsize]
      have h1 : (cells.take m).length = m := by
        rw [List.length_take]
        omega
      have h2 : (cells.drop (m + 1)).length = cells.length - (m + 1) := by
        rw [List.length_drop]
      simp only [List.length_append, List.length_cons, h1, h2]
      have : Singly.vals newcells = values := hvals
      have hnlen : newcells.length = values.length := by
        rw [← Singly.length_vals newcells, hvals]
      rw [hnlen]
      push_cast
      omega
  · have hw : (Singly.vals cells)[m]? = some w := by
      rw [Singly.vals_getElem?, hgetb]
      rfl
    simp only [Singly.vals_append, Singly.vals_cons, hvals, Singly.vals_take,
      Singly.vals_drop]
    rw [List.take_succ, hw]
    simp

theorem Singly.inBounds_iff {l : Singly.SList T} {index : Int} :
    Singly.inBounds l index = true ↔ (0 ≤ index ∧ index < l.size) := by
  unfold Singly.inBounds
  simp [ge_iff_le]

theorem Singly.inBounds_false {l : Singly.SList T} {index : Int}
    (h : ¬ (0 ≤ index ∧ index < l.size)) :
    Singly.inBounds l index = false := by
  cases hb : Singly.inBounds l index
  · rfl
  · exact absurd (Singly.inBounds_iff.1 hb) h

theorem Singly.Insert_inv {s : Singly.St T} {cells : List (Nat × T)}
    (hinv : Singly.Inv s cells) {index : Int} (h0 : 0 ≤ index)
    (hle : index ≤ s.lst.size) (values : List T) :
    (Singly.Insert s index values).2 = none ∧
      ∃ cells2, Singly.Inv (Singly.Insert s index values).1 cells2 ∧
        Singly.vals cells2 = (Singly.vals cells).take index.toNat ++ values ++
          (Singly.vals cells).drop index.toNat := by
  have hsize := hinv.size_eq
  by_cases hend : index = s.lst.size
  · have hnb : Singly.inBounds s.lst index = false :=
      Singly.inBounds_false (by omega)
    have heq : Singly.Insert s index values = (Singly.Append s values, none) := by
      unfold Singly.Insert
      rw [if_pos (by simp [hnb]), if_pos hend]
    rw [heq]
    obtain ⟨cells2, hinv2, hvals⟩ := Singly.Add_inv values hinv
    refine ⟨rfl, cells2, hinv2, ?_⟩
    rw [hvals]
    have hk : index.toNat = cells.length := by omega
    rw [hk, ← Singly.length_vals, List.take_length,
      List.drop_eq_nil_of_le (le_refl _)]
    simp
  · have hlt : index < s.lst.size := lt_of_le_of_ne hle hend
    by_cases h00 : index = 0
    · subst h00
      have hb : Singly.inBounds s.lst 0 = true :=
        Singly.inBounds_iff.2 ⟨le_refl _, hlt⟩
      have heq : Singly.Insert s 0 values = (Singly.Prepend s values, none) := by
        unfold Singly.Insert
        rw [if_neg (by simp [hb]), if_pos rfl]
      rw [heq]
      obtain ⟨cells2, hinv2, hvals⟩ := Singly.Prepend_inv values hinv
      refine ⟨rfl, cells2, hinv2, ?_⟩
      rw [hvals]
      simp
    · exact Singly.Insert_interior_inv hinv (by omega) hlt values

theorem Singly.Size_frame (s : Singly.St T) : (Singly.Size s).1 = s := rfl

theorem Singly.IsEmpty_frame (s : Singly.St T) : (Singly.IsEmpty s).1 = s := rfl

theorem Singly.First_frame [Inhabited T] (s : Singly.St T) :
    (Singly.First s).1 = s := by
  unfold Singly.First
  split <;> rfl

theorem Singly.Last_frame [Inhabited T] (s : Singly.St T) :
    (Singly.Last s).1 = s := by
  unfold Singly.Last
  split <;> rfl

theorem Singly.Get_frame [Inhabited T] (s : Singly.St T) (index : Int) :
    (Singly.Get s index).1 = s := by
  unfold Singly.Get
  split <;> rfl

theorem Singly.Values_frame (s : Singly.St T) : (Singly.Values s).1 = s := rfl

theorem Singly.IndexOf_frame [DecidableEq T] (s : Singly.St T) (value : T) :
    (Singly.IndexOf s value).1 = s := by
  unfold Singly.IndexOf
  split <;> rfl

theorem Singly.Contains_frame [DecidableEq T] (s : Singly.St T)
    (values : List T) : (Singly.Contains s values).1 = s := by
  unfold Singly.Contains
  split
  · rfl
  · split <;> rfl

theorem Singly.Remove_fail {s : Singly.St T} {index : Int}
    (h : (Singly.Remove s index).2 ≠ none) : (Singly.Remove s index).1 = s := by
  by_cases h1 : s.lst.size = 0
  · unfold Singly.Remove
    rw [if_pos (by simp [Singly.IsEmpty, h1])]
  · by_cases h2 : Singly.inBounds s.lst index = true
    · exact absurd (by rw [Singly.Remove_eq h1 h2]) h
    · unfold Singly.Remove
      rw [if_neg (by simp [Singly.IsEmpty, h1]), if_pos (by simpa using h2)]

theorem Singly.Set_fail {s : Singly.St T} {index : Int} {value : T}
    (h : (Singly.Set s index value).2 ≠ none) :
    (Singly.Set s index value).1 = s := by
  by_cases hb : Singly.inBounds s.lst index = true
  · exact absurd (by rw [Singly.Set_eq hb]) h
  · unfold Singly.Set
    rw [if_pos (by simpa using hb)]

theorem Singly.Swap_fail [Inhabited T] {s : Singly.St T} {i j : Int}
    (h : (Singly.Swap s i j).2 ≠ none) : (Singly.Swap s i j).1 = s := by
  by_cases hbi : Singly.inBounds s.lst i = true
  · by_cases hbj : Singly.inBounds s.lst j = true
    · by_cases hij : i = j
      · subst hij
        unfold Singly.Swap
        rw [if_neg (by simp [hbi]), if_pos rfl]
      · exact absurd (by rw [Singly.Swap_eq hbi hbj hij]) h
    · unfold Singly.Swap
      rw [if_pos (Or.inr (by simpa using hbj))]
  · unfold Singly.Swap
    rw [if_pos (Or.inl (by simpa using hbi))]

theorem Singly.Insert_err {s : Singly.St T} {index : Int} {values : List T}
    (h : (Singly.Insert s index values).2 ≠ none) :
    (Singly.Insert s index values).1 = s := by
  by_cases h1 : Singly.inBounds s.lst index = true
  · exfalso
    apply h
    by_cases h00 : index = 0
    · unfold Singly.Insert
      rw [if_neg (by simp [h1]), if_pos h00]
    · rw [Singly.Insert_eq_interior h1 h00]
  · by_cases h2 : index = s.lst.size
    · exfalso
      apply h
      unfold Singly.Insert
      rw [if_pos (by simpa using h1), if_pos h2]
    · rw [Singly.Insert_fail (by simpa using h1) h2]

theorem Singly.Get_oob [Inhabited T] {s : Singly.St T} {index : Int}
    (h : ¬ (0 ≤ index ∧ index < s.lst.size)) :
    Singly.Get s index = (s, default, some .indexOutOfBounds) := by
  unfold Singly.Get
  rw [if_pos (by simp [Singly.inBounds_false h])]

theorem Singly.Set_oob {s : Singly.St T} {index : Int} (value : T)
    (h : ¬ (0 ≤ index ∧ index < s.lst.size)) :
    Singly.Set s index value = (s, some .indexOutOfBounds) := by
  unfold Singly.Set
  rw [if_pos (by simp [Singly.inBounds_false h])]

theorem Singly.Swap_oob [Inhabited T] {s : Singly.St T} {i j : Int}
    (h : ¬ (0 ≤ i ∧ i < s.lst.size) ∨ ¬ (0 ≤ j ∧ j < s.lst.size)) :
    Singly.Swap s i j = (s, some .indexOutOfBounds) := by
  unfold Singly.Swap
  rcases h with h | h
  · rw [if_pos (Or.inl (by simp [Singly.inBounds_false h]))]
  · rw [if_pos (Or.inr (by simp [Singly.inBounds_false h]))]

theorem Singly.Remove_oob {s : Singly.St T} {index : Int}
    (hsz : ¬ s.lst.size = 0) (h : ¬ (0 ≤ index ∧ index < s.lst.size)) :
    Singly.Remove s index = (s, some .indexOutOfBounds) := by
  unfold Singly.Remove
  rw [if_neg (by simp [Singly.IsEmpty, hsz]),
    if_pos (by simp [Singly.inBounds_false h])]

theorem Singly.Remove_empty {s : Singly.St T} (hsz : s.lst.size = 0)
    (index : Int) : Singly.Remove s index = (s, some .emptyList) := by
  unfold Singly.Remove
  rw [if_pos (by simp [Singly.IsEmpty, hsz])]

theorem Singly.First_empty [Inhabited T] {s : Singly.St T}
    (hsz : s.lst.size = 0) :
    Singly.First s = (s, default, some .emptyList) := by
  unfold Singly.First
  rw [if_pos (by simp [Singly.IsEmpty, hsz])]

theorem Singly.Last_empty [Inhabited T] {s : Singly.St T}
    (hsz : s.lst.size = 0) :
    Singly.Last s = (s, default, some .emptyList) := by
  unfold Singly.Last
  rw [if_pos (by simp [Singly.IsEmpty, hsz])]

theorem Singly.IndexOf_empty [DecidableEq T] {s : Singly.St T}
    (hsz : s.lst.size = 0) (value : T) :
    Singly.IndexOf s value = (s, -1, some .emptyList) := by
  unfold Singly.IndexOf
  rw [if_pos (by simp [Singly.IsEmpty, hsz])]

theorem Singly.findIdx_spec [DecidableEq T] {h : Singly.Heap T} (value : T) :
    ∀ {cells : List (Nat × T)} {p : Option Nat} (n : Int),
      Singly.Seg h p cells none →
      ((value ∉ Singly.vals cells →
          Singly.findIdx h value p n cells.length =
            (-1, some .elementNotFound)) ∧
        (∀ k : Nat, (Singly.vals cells)[k]? = some value →
          (∀ m2, m2 < k → ¬ (Singly.vals cells)[m2]? = some value) →
          Singly.findIdx h value p n cells.length = (n + k, none))) := by
  intro cells
  induction cells with
  | nil =>
    intro p n hs
    have hp := Singly.seg_nil_inv hs
    subst hp
    constructor
    · intro _
      rfl
    · intro k hk _
      simp at hk
  | cons c rest ih =>
    intro p n hs
    obtain ⟨hp, q, hnode, htail⟩ := Singly.seg_cons_inv hs
    subst hp
    have hred : Singly.findIdx h value (some c.1) n (rest.length + 1) =
        if c.2 = value then (n, none)
        else Singly.findIdx h value q (n + 1) rest.length := by
      rw [Singly.findIdx.eq_def]
      dsimp only [Singly.deref]
      rw [hnode]
    constructor
    · intro hnm
      have hc2 : ¬ c.2 = value := fun e => hnm (by
        rw [Singly.vals_cons, ← e]
        exact List.mem_cons_self _ _)
      show Singly.findIdx h value (some c.1) n (rest.length + 1) = _
      rw [hred, if_neg hc2]
      refine (ih (n + 1) htail).1 ?_
      intro hm
      exact hnm (by rw [Singly.vals_cons]; exact List.mem_cons_of_mem _ hm)
    · intro k hk hmin
      show Singly.findIdx h value (some c.1) n (rest.length + 1) = _
      rw [hred]
      by_cases hc2 : c.2 = value
      · have hk0 : k = 0 := by
          by_contra hne
          refine hmin 0 (by omega) ?_
          rw [Singly.vals_cons, List.getElem?_cons_zero, hc2]
        subst hk0
        rw [if_pos hc2]
        simp
      · have hk0 : ¬ k = 0 := by
          intro e
          subst e
          rw [Singly.vals_cons, List.getElem?_cons_zero] at hk
          exact hc2 (Option.some.inj hk)
        obtain ⟨k2, rfl⟩ : ∃ k2, k = k2 + 1 := ⟨k - 1, by omega⟩
        rw [if_neg hc2]
        have hk2 : (Singly.vals rest)[k2]? = some value := by
          rw [Singly.vals_cons, List.getElem?_cons_succ] at hk
          exact hk
        have hmin2 : ∀ m2, m2 < k2 → ¬ (Singly.vals rest)[m2]? = some value := by
          intro m2 hm2 hcon
          refine hmin (m2 + 1) (by omega) ?_
          rw [Singly.vals_cons, List.getElem?_cons_succ]
          exact hcon
        rw [(ih (n + 1) htail).2 k2 hk2 hmin2]
        have harith : n + 1 + (k2 : Int) = n + ((k2 + 1 : Nat) : Int) := by
          push_cast
          ring
        rw [harith]

theorem Singly.Swap_self [Inhabited T] {s : Singly.St T} {i : Int}
    (hb : Singly.inBounds s.lst i = true) : Singly.Swap s i i = (s, none) := by
  unfold Singly.Swap
  rw [if_neg (by simp [hb]), if_pos rfl]

theorem Singly.WF_pointers {s : Singly.St T} (hwf : Singly.WF s) :
    (s.lst.size = 0 ↔ s.lst.first = none) ∧
      (s.lst.first = none ↔ s.lst.last = none) := by
  obtain ⟨cells, hseg, hlast, hbound, hsize⟩ := hwf
  cases cells with
  | nil =>
    have hf : s.lst.first = none := Singly.seg_nil_inv hseg
    have hl : s.lst.last = none := by rw [hlast]; rfl
    rw [hsize, hf, hl]
    simp
  | cons c rest =>
    obtain ⟨hf, q, hnode, htail⟩ := Singly.seg_cons_inv hseg
    have hl : s.lst.last ≠ none := by
      rw [hlast]
      unfold Singly.lastAddr
      intro hcon
      have : Singly.addrs (c :: rest) ≠ [] := by simp
      rw [← List.getLast?_isSome] at this
      rw [hcon] at this
      simp at this
    rw [hsize, hf]
    refine ⟨⟨fun hc => absurd hc (by push_cast [List.length_cons]; omega),
      fun hc => by simp at hc⟩,
      ⟨fun hc => by simp at hc, fun hc => absurd hc hl⟩⟩

theorem Singly.WF_chain {s : Singly.St T} (hwf : Singly.WF s) :
    Singly.walk s.mem.heap s.lst.first s.lst.size.toNat = none ∧
      (¬ s.lst.size = 0 →
        Singly.walk s.mem.heap s.lst.first (s.lst.size.toNat - 1) =
          s.lst.last ∧
        Singly.nextPtr s.mem.heap s.lst.last = none) := by
  obtain ⟨cells, hinv⟩ := hwf
  obtain ⟨hseg, hlast, hbound, hsize⟩ := hinv
  have ht : s.lst.size.toNat = cells.length := by
    rw [hsize]
    simp
  constructor
  · rw [ht]
    exact Singly.seg_walk hseg
  · intro hsz
    have hlen : 0 < cells.length := by
      rw [hsize] at hsz
      omega
    obtain ⟨aL, vL, qL, hgetL, hwalkL, hnodeL, hwalkL1, hdropL⟩ :=
      Singly.seg_at hseg (k := cells.length - 1) (by omega)
    have hlastL : s.lst.last = some aL := by
      rw [hlast, Singly.lastAddr_eq_getElem?, Singly.addrs_getElem?, hgetL]
      rfl
    have hqL : qL = none := by
      have : cells.drop (cells.length - 1 + 1) = [] :=
        List.drop_eq_nil_of_le (by omega)
      rw [this] at hdropL
      exact Singly.seg_nil_inv hdropL
    refine ⟨?_, ?_⟩
    · rw [ht, hlastL]
      exact hwalkL
    · rw [hlastL]
      simp [Singly.nextPtr, Singly.deref, hnodeL, hqL]

theorem Singly.WF_size_values {s : Singly.St T} (hwf : Singly.WF s) :
    (Singly.Size s).2 = (((Singly.Values s).2.length : Nat) : Int) := by
  obtain ⟨cells, hinv⟩ := hwf
  rw [Singly.Values_inv hinv]
  show s.lst.size = _
  rw [hinv.size_eq]
  simp

theorem Singly.WF_step [DecidableEq T] [Inhabited T] {s s2 : Singly.St T}
    (hwf : Singly.WF s) (hstep : Singly.Step s s2) : Singly.WF s2 := by
  obtain ⟨cells, hinv⟩ := hwf
  cases hstep with
  | size => exact ⟨cells, hinv⟩
  | isEmpty => exact ⟨cells, hinv⟩
  | add values =>
    obtain ⟨c2, h2, -⟩ := Singly.Add_inv values hinv
    exact ⟨c2, h2⟩
  | append values =>
    obtain ⟨c2, h2, -⟩ := Singly.Add_inv values hinv
    exact ⟨c2, h2⟩
  | prepend values =>
    obtain ⟨c2, h2, -⟩ := Singly.Prepend_inv values hinv
    exact ⟨c2, h2⟩
  | first =>
    rw [Singly.First_frame]
    exact ⟨cells, hinv⟩
  | last =>
    rw [Singly.Last_frame]
    exact ⟨cells, hinv⟩
  | get index =>
    rw [Singly.Get_frame]
    exact ⟨cells, hinv⟩
  | values =>
    rw [Singly.Values_frame]
    exact ⟨cells, hinv⟩
  | indexOf value =>
    rw [Singly.IndexOf_frame]
    exact ⟨cells, hinv⟩
  | clear =>
    exact ⟨[], Singly.Seg.nil none, rfl, by simp, rfl⟩
  | remove index =>
    by_cases h1 : s.lst.size = 0
    · rw [Singly.Remove_empty h1 index]
      exact ⟨cells, hinv⟩
    · by_cases h2 : 0 ≤ index ∧ index < s.lst.size
      · exact ⟨_, (Singly.Remove_inv hinv h2.1 h2.2).2⟩
      · rw [Singly.Remove_oob h1 h2]
        exact ⟨cells, hinv⟩
  | contains values =>
    rw [Singly.Contains_frame]
    exact ⟨cells, hinv⟩
  | swap i j =>
    by_cases hb : (0 ≤ i ∧ i < s.lst.size) ∧ (0 ≤ j ∧ j < s.lst.size)
    · by_cases hij : i = j
      · subst hij
        rw [Singly.Swap_self (Singly.inBounds_iff.2 hb.1)]
        exact ⟨cells, hinv⟩
      · obtain ⟨-, c2, h2, -⟩ :=
          Singly.Swap_inv hinv hb.1.1 hb.1.2 hb.2.1 hb.2.2 hij
        exact ⟨c2, h2⟩
    · have hor : ¬ (0 ≤ i ∧ i < s.lst.size) ∨ ¬ (0 ≤ j ∧ j < s.lst.size) := by
        tauto
      rw [Singly.Swap_oob hor]
      exact ⟨cells, hinv⟩
  | insert index values =>
    by_cases h2 : 0 ≤ index ∧ index ≤ s.lst.size
    · obtain ⟨-, c2, h2, -⟩ := Singly.Insert_inv hinv h2.1 h2.2 values
      exact ⟨c2, h2⟩
    · have hsz := hinv.size_eq
      have hnb : Singly.inBounds s.lst index = false :=
        Singly.inBounds_false (by omega)
      have hne : ¬ index = s.lst.size := by omega
      rw [Singly.Insert_fail hnb hne]
      exact ⟨cells, hinv⟩
  | set index value =>
    by_cases h2 : 0 ≤ index ∧ index < s.lst.size
    · obtain ⟨-, c2, h2, -⟩ := Singly.Set_inv hinv h2.1 h2.2 value
      exact ⟨c2, h2⟩
    · rw [Singly.Set_oob value h2]
      exact ⟨cells, hinv⟩

theorem list_set_getD_self {α : Type} [Inhabited α] (l : List α) (k : Nat)
    (hk : k < l.length) : l.set k (l.getD k default) = l := by
  refine List.ext_getElem? ?_
  intro n
  by_cases hn : n = k
  · subst hn
    rw [List.getElem?_set_self hk, List.getD_eq_getElem?_getD,
      List.getElem?_eq_getElem hk]
    rfl
  · exact List.getElem?_set_ne (fun e => hn e.symm)

/-- C1: the claim says Contains(values...) is true iff every distinct value
among the arguments appears in the list, with the early size cut-off made
against the number of DISTINCT values.  The code compares list.size with the
raw argument count len(values) before deduplicating, so Contains(1, 1) on
the one-element list [1] returns false even though the only distinct
requested value, 1, is present (and the method's own doc comment promises
true when all values are present).  This theorem evaluates the embedded
code at that failing input. -/
theorem C1_contains_raw_length_bug :
    (Singly.Contains (Singly.New [(1 : Int)]) [1, 1]).2 = false ∧
      (∀ v ∈ ([1, 1] : List Int), v ∈ (Singly.Values (Singly.New [(1 : Int)])).2) ∧
      ([1, 1] : List Int).dedup.length ≤
        (Singly.Size (Singly.New [(1 : Int)])).2.toNat := by
  refine ⟨by decide, by decide, by decide⟩

/-- C2: New establishes the structural invariant, every operation (as a Step
transition) preserves it, and in every well-formed state size is zero iff
the head pointer is nil iff the tail pointer is nil, walking size steps from
the head lands on nil, walking size-1 steps lands on the tail whose next is
nil, and Size equals the length of Values. -/
theorem C2_invariant_preservation {T : Type} [DecidableEq T] [Inhabited T] :
    (∀ values : List T, Singly.WF (Singly.New values)) ∧
    (∀ s s2 : Singly.St T, Singly.WF s → Singly.Step s s2 → Singly.WF s2) ∧
    (∀ s : Singly.St T, Singly.WF s →
      ((s.lst.size = 0 ↔ s.lst.first = none) ∧
       (s.lst.first = none ↔ s.lst.last = none) ∧
       Singly.walk s.mem.heap s.lst.first s.lst.size.toNat = none ∧
       (¬ s.lst.size = 0 →
         Singly.walk s.mem.heap s.lst.first (s.lst.size.toNat - 1) =
           s.lst.last ∧
         Singly.nextPtr s.mem.heap s.lst.last = none) ∧
       (Singly.Size s).2 = (((Singly.Values s).2.length : Nat) : Int))) := by
  refine ⟨?_, ?_, ?_⟩
  · intro values
    obtain ⟨cells, hinv, -⟩ := Singly.New_inv values
    exact ⟨cells, hinv⟩
  · intro s s2 hwf hstep
    exact Singly.WF_step hwf hstep
  · intro s hwf
    obtain ⟨h1, h2⟩ := Singly.WF_pointers hwf
    obtain ⟨h3, h4⟩ := Singly.WF_chain hwf
    exact ⟨h1, h2, h3, h4, Singly.WF_size_values hwf⟩

theorem C2_witness :
    Singly.WF (Singly.New [(1 : Int), 2]) ∧
      Singly.WF (Singly.Remove (Singly.New [(1 : Int), 2]) 0).1 ∧
      ((Singly.New [(1 : Int), 2]).lst.size = 0 ↔
        (Singly.New [(1 : Int), 2]).lst.first = none) := by
  have h1 := (C2_invariant_preservation (T := Int)).1 [(1 : Int), 2]
  refine ⟨h1, ?_, ?_⟩
  · exact (C2_invariant_preservation (T := Int)).2.1 _ _ h1
      (Singly.Step.remove _ 0)
  · exact ((C2_invariant_preservation (T := Int)).2.2 _ h1).1

/-- C3: Get, Set, Swap with an index outside the valid range return
IndexOutOfBounds (Remove does too once the list is non-empty); on an empty
list First, Last, IndexOf and Remove (at every index, emptiness is checked
before bounds) return EmptyList, while Get(0) on an empty list returns the
zero value with IndexOutOfBounds. -/
theorem C3_error_kinds {T : Type} [DecidableEq T] [Inhabited T]
    (s : Singly.St T) (index j : Int) (value : T) :
    (¬ (0 ≤ index ∧ index < s.lst.size) →
      Singly.Get s index = (s, default, some .indexOutOfBounds) ∧
      Singly.Set s index value = (s, some .indexOutOfBounds) ∧
      Singly.Swap s index j = (s, some .indexOutOfBounds) ∧
      (¬ s.lst.size = 0 →
        Singly.Remove s index = (s, some .indexOutOfBounds))) ∧
    (s.lst.size = 0 →
      Singly.First s = (s, default, some .emptyList) ∧
      Singly.Last s = (s, default, some .emptyList) ∧
      Singly.IndexOf s value = (s, -1, some .emptyList) ∧
      Singly.Remove s index = (s, some .emptyList) ∧
      Singly.Get s 0 = (s, default, some .indexOutOfBounds)) := by
  constructor
  · intro h
    exact ⟨Singly.Get_oob h, Singly.Set_oob value h,
      Singly.Swap_oob (Or.inl h), fun hsz => Singly.Remove_oob hsz h⟩
  · intro hsz
    exact ⟨Singly.First_empty hsz, Singly.Last_empty hsz,
      Singly.IndexOf_empty hsz value, Singly.Remove_empty hsz index,
      Singly.Get_oob (by omega)⟩

theorem C3_witness :
    Singly.Get (Singly.New ([] : List Int)) 5 =
      (Singly.New ([] : List Int), default, some .indexOutOfBounds) ∧
    Singly.First (Singly.New ([] : List Int)) =
      (Singly.New ([] : List Int), default, some .emptyList) ∧
    Singly.Remove (Singly.New ([] : List Int)) (-3) =
      (Singly.New ([] : List Int), some .emptyList) := by
  have h := C3_error_kinds (Singly.New ([] : List Int)) 5 0 (7 : Int)
  have h2 := C3_error_kinds (Singly.New ([] : List Int)) (-3) 0 (7 : Int)
  exact ⟨(h.1 (by decide)).1, (h.2 (by decide)).1, (h2.2 (by decide)).2.2.2.1⟩

/-- C4: Insert at a boundary index behaves like Prepend (index 0) or Append
(index = size), observationally on Values; every in-range insertion places
the values between the old prefix and suffix and grows size by exactly the
number of inserted values (also in the index = 0 = size case); any other
index fails with IndexOutOfBounds and leaves the state unchanged. -/
theorem C4_insert {T : Type} [DecidableEq T] [Inhabited T] (s : Singly.St T)
    (index : Int) (values : List T) (hwf : Singly.WF s) :
    (0 ≤ index ∧ index ≤ s.lst.size →
      (Singly.Insert s index values).2 = none ∧
      (Singly.Values (Singly.Insert s index values).1).2 =
        (Singly.Values s).2.take index.toNat ++ values ++
          (Singly.Values s).2.drop index.toNat ∧
      (Singly.Insert s index values).1.lst.size =
        s.lst.size + values.length) ∧
    ((index < 0 ∨ s.lst.size < index) →
      Singly.Insert s index values = (s, some .indexOutOfBounds)) ∧
    ((Singly.Values (Singly.Insert s 0 values).1).2 =
        (Singly.Values (Singly.Prepend s values)).2 ∧
      (Singly.Insert s 0 values).2 = none) ∧
    ((Singly.Values (Singly.Insert s s.lst.size values).1).2 =
        (Singly.Values (Singly.Append s values)).2 ∧
      (Singly.Insert s s.lst.size values).2 = none) := by
  obtain ⟨cells, hinv⟩ := hwf
  have hsz := hinv.size_eq
  have hmain : ∀ k : Int, 0 ≤ k → k ≤ s.lst.size →
      (Singly.Insert s k values).2 = none ∧
      (Singly.Values (Singly.Insert s k values).1).2 =
        (Singly.Values s).2.take k.toNat ++ values ++
          (Singly.Values s).2.drop k.toNat ∧
      (Singly.Insert s k values).1.lst.size = s.lst.size + values.length := by
    intro k hk0 hkle
    obtain ⟨herr, cells2, hinv2, hvals⟩ := Singly.Insert_inv hinv hk0 hkle values
    refine ⟨herr, ?_, ?_⟩
    · rw [Singly.Values_inv hinv2, Singly.Values_inv hinv, hvals]
    · rw [hinv2.size_eq]
      have hlen2 := congrArg List.length hvals
      simp only [Singly.length_vals, List.length_append, List.length_take,
        List.length_drop] at hlen2
      have hkle2 : k.toNat ≤ cells.length := by omega
      rw [hlen2]
      push_cast
      omega
  refine ⟨fun h => hmain index h.1 h.2, ?_, ?_, ?_⟩
  · intro h
    have hnb : Singly.inBounds s.lst index = false :=
      Singly.inBounds_false (by omega)
    exact Singly.Insert_fail hnb (by omega) values
  · obtain ⟨h1, h2, h3⟩ := hmain 0 (by omega) (by omega)
    refine ⟨?_, h1⟩
    rw [h2]
    obtain ⟨cells2, hinv2, hvals⟩ := Singly.Prepend_inv values hinv
    rw [Singly.Values_inv hinv2, Singly.Values_inv hinv, hvals]
    simp
  · obtain ⟨h1, h2, h3⟩ := hmain s.lst.size (by omega) (by omega)
    refine ⟨?_, h1⟩
    rw [h2]
    obtain ⟨cells2, hinv2, hvals⟩ := Singly.Add_inv values hinv
    show _ = (Singly.Values (Singly.Add s values)).2
    rw [Singly.Values_inv hinv2, Singly.Values_inv hinv, hvals]
    have hk : s.lst.size.toNat = cells.length := hinv.size_toNat
    rw [hk, ← Singly.length_vals, List.take_length,
      List.drop_eq_nil_of_le (le_refl _)]
    simp

theorem C4_witness :
    (0 ≤ (1 : Int) ∧ (1 : Int) ≤ (Singly.New [(1 : Int), 2, 3]).lst.size) ∧
      (Singly.Insert (Singly.New [(1 : Int), 2, 3]) 1 [9]).2 = none ∧
      (Singly.Values (Singly.Insert (Singly.New [(1 : Int), 2, 3]) 1 [9]).1).2 =
        (Singly.Values (Singly.New [(1 : Int), 2, 3])).2.take 1 ++ [9] ++
          (Singly.Values (Singly.New [(1 : Int), 2, 3])).2.drop 1 ∧
      (Singly.Insert (Singly.New [(1 : Int), 2, 3]) 1 [9]).1.lst.size =
        (Singly.New [(1 : Int), 2, 3]).lst.size + 1 := by
  have hwf : Singly.WF (Singly.New [(1 : Int), 2, 3]) := by
    obtain ⟨cells, hinv, -⟩ := Singly.New_inv [(1 : Int), 2, 3]
    exact ⟨cells, hinv⟩
  have h := (C4_insert (Singly.New [(1 : Int), 2, 3]) 1 [9] hwf).1
    (by constructor <;> decide)
  exact ⟨⟨by decide, by decide⟩, h.1, h.2.1, h.2.2⟩

/-- C5: Prepend puts the argument values, in the order passed, in front of
the prior contents (which stay unchanged), grows size accordingly, and sets
the tail pointer when the list was empty and at least one value is given. -/
theorem C5_prepend {T : Type} [DecidableEq T] [Inhabited T] (s : Singly.St T)
    (values : List T) (hwf : Singly.WF s) :
    (Singly.Values (Singly.Prepend s values)).2 =
      values ++ (Singly.Values s).2 ∧
    (Singly.Prepend s values).lst.size = s.lst.size + values.length ∧
    (s.lst.size = 0 → values ≠ [] →
      (Singly.Prepend s values).lst.last ≠ none) := by
  obtain ⟨cells, hinv⟩ := hwf
  obtain ⟨cells2, hinv2, hvals⟩ := Singly.Prepend_inv values hinv
  have hlen2 : cells2.length = values.length + cells.length := by
    have := congrArg List.length hvals
    simpa using this
  refine ⟨?_, ?_, ?_⟩
  · rw [Singly.Values_inv hinv2, Singly.Values_inv hinv, hvals]
  · rw [hinv2.size_eq, hinv.size_eq, hlen2]
    push_cast
    ring
  · intro hsz hvne
    have hczero : cells.length = 0 := by
      have := hinv.size_eq
      omega
    have hc2 : cells2.length ≠ 0 := by
      rw [hlen2, hczero]
      simpa using fun hc => hvne (List.length_eq_zero.1 hc)
    obtain ⟨hseg2, hlast2, -, -⟩ := hinv2
    rw [hlast2]
    unfold Singly.lastAddr
    intro hcon
    have hne : Singly.addrs cells2 ≠ [] := by
      intro hx
      exact hc2 (by simpa using congrArg List.length hx)
    rw [← List.getLast?_isSome, hcon] at hne
    simp at hne

theorem C5_witness :
    (Singly.Values (Singly.Prepend (Singly.New [(3 : Int)]) [1, 2])).2 =
      [1, 2] ++ (Singly.Values (Singly.New [(3 : Int)])).2 ∧
    (Singly.Prepend (Singly.New ([] : List Int)) [7]).lst.last ≠ none := by
  have hwf1 : Singly.WF (Singly.New [(3 : Int)]) := by
    obtain ⟨cells, hinv, -⟩ := Singly.New_inv [(3 : Int)]
    exact ⟨cells, hinv⟩
  have hwf2 : Singly.WF (Singly.New ([] : List Int)) := by
    obtain ⟨cells, hinv, -⟩ := Singly.New_inv ([] : List Int)
    exact ⟨cells, hinv⟩
  exact ⟨(C5_prepend (Singly.New [(3 : Int)]) [1, 2] hwf1).1,
    (C5_prepend (Singly.New ([] : List Int)) [7] hwf2).2.2 (by decide)
      (by decide)⟩

/-- C6: Remove at a valid index of a well-formed list succeeds with nil
error, the contents become the old contents with position index deleted,
size drops by one; on [1,2,3], Remove(0) yields [2,3] with size 2, and
IndexOf(2) afterwards yields 0 with nil error. -/
theorem C6_remove {T : Type} [DecidableEq T] [Inhabited T] (s : Singly.St T)
    (index : Int) (hwf : Singly.WF s) (h0 : 0 ≤ index)
    (hlt : index < s.lst.size) :
    ((Singly.Remove s index).2 = none ∧
      (Singly.Values (Singly.Remove s index).1).2 =
        (Singly.Values s).2.eraseIdx index.toNat ∧
      (Singly.Remove s index).1.lst.size = s.lst.size - 1) ∧
    ((Singly.Values (Singly.Remove (Singly.New [(1 : Int), 2, 3]) 0).1).2 =
        [2, 3] ∧
      (Singly.Remove (Singly.New [(1 : Int), 2, 3]) 0).1.lst.size = 2 ∧
      (Singly.IndexOf (Singly.Remove (Singly.New [(1 : Int), 2, 3]) 0).1
        2).2 = (0, none)) := by
  obtain ⟨cells, hinv⟩ := hwf
  obtain ⟨herr, hinv2⟩ := Singly.Remove_inv hinv h0 hlt
  have hlen : index.toNat < cells.length := by
    have := hinv.size_eq
    omega
  refine ⟨⟨herr, ?_, ?_⟩, by decide, by decide, by decide⟩
  · rw [Singly.Values_inv hinv2, Singly.Values_inv hinv,
      Singly.vals_eraseIdx]
  · rw [hinv2.size_eq, hinv.size_eq, List.length_eraseIdx]
    simp only [hlen, if_pos]
    omega

theorem C6_witness :
    (Singly.Remove (Singly.New [(1 : Int), 2, 3]) 0).2 = none ∧
      (Singly.Values (Singly.Remove (Singly.New [(1 : Int), 2, 3]) 0).1).2 =
        (Singly.Values (Singly.New [(1 : Int), 2, 3])).2.eraseIdx 0 := by
  have hwf : Singly.WF (Singly.New [(1 : Int), 2, 3]) := by
    obtain ⟨cells, hinv, -⟩ := Singly.New_inv [(1 : Int), 2, 3]
    exact ⟨cells, hinv⟩
  have h := C6_remove (Singly.New [(1 : Int), 2, 3]) 0 hwf (by decide)
    (by decide)
  exact ⟨h.1.1, h.1.2.1⟩

/-- C7: Swap of two valid positions returns nil and exchanges exactly the
two stored values (observed through Values); Swap(i, i) at a valid i is a
no-op returning nil; bounds are validated first, so any out-of-range index
yields IndexOutOfBounds with the state unchanged. -/
theorem C7_swap {T : Type} [DecidableEq T] [Inhabited T] (s : Singly.St T)
    (i j : Int) (hwf : Singly.WF s) :
    (0 ≤ i → i < s.lst.size → 0 ≤ j → j < s.lst.size →
      (Singly.Swap s i j).2 = none ∧
      (Singly.Values (Singly.Swap s i j).1).2 =
        ((Singly.Values s).2.set i.toNat
            ((Singly.Values s).2.getD j.toNat default)).set j.toNat
          ((Singly.Values s).2.getD i.toNat default)) ∧
    (0 ≤ i → i < s.lst.size → Singly.Swap s i i = (s, none)) ∧
    (¬ (0 ≤ i ∧ i < s.lst.size) ∨ ¬ (0 ≤ j ∧ j < s.lst.size) →
      Singly.Swap s i j = (s, some .indexOutOfBounds)) := by
  obtain ⟨cells, hinv⟩ := hwf
  refine ⟨?_, ?_, Singly.Swap_oob⟩
  · intro h0i hi h0j hj
    by_cases hij : i = j
    · subst hij
      rw [Singly.Swap_self (Singly.inBounds_iff.2 ⟨h0i, hi⟩)]
      have hleni : i.toNat < (Singly.Values s).2.length := by
        rw [Singly.Values_inv hinv, Singly.length_vals]
        have := hinv.size_eq
        omega
      refine ⟨rfl, ?_⟩
      rw [list_set_getD_self _ _ hleni]
      rw [list_set_getD_self _ _ hleni]
    · obtain ⟨herr, cells2, hinv2, hvals⟩ :=
        Singly.Swap_inv hinv h0i hi h0j hj hij
      refine ⟨herr, ?_⟩
      rw [Singly.Values_inv hinv2, Singly.Values_inv hinv, hvals]
  · intro h0i hi
    exact Singly.Swap_self (Singly.inBounds_iff.2 ⟨h0i, hi⟩)

theorem C7_witness :
    (Singly.Swap (Singly.New [(1 : Int), 2, 3]) 0 2).2 = none ∧
      (Singly.Values (Singly.Swap (Singly.New [(1 : Int), 2, 3]) 0 2).1).2 =
        (((Singly.Values (Singly.New [(1 : Int), 2, 3])).2.set 0
            ((Singly.Values (Singly.New [(1 : Int), 2, 3])).2.getD 2
              default)).set 2
          ((Singly.Values (Singly.New [(1 : Int), 2, 3])).2.getD 0
            default)) ∧
      Singly.Swap (Singly.New [(1 : Int), 2, 3]) 1 1 =
        (Singly.New [(1 : Int), 2, 3], none) := by
  have hwf : Singly.WF (Singly.New [(1 : Int), 2, 3]) := by
    obtain ⟨cells, hinv, -⟩ := Singly.New_inv [(1 : Int), 2, 3]
    exact ⟨cells, hinv⟩
  have h := C7_swap (Singly.New [(1 : Int), 2, 3]) 0 2 hwf
  have h2 := C7_swap (Singly.New [(1 : Int), 2, 3]) 1 1 hwf
  obtain ⟨ha, hb⟩ := h.1 (by decide) (by decide) (by decide) (by decide)
  exact ⟨ha, hb, h2.2.1 (by decide) (by decide)⟩

/-- C8: IndexOf returns the smallest position holding the value with nil
error when present; returns -1 with EmptyList on an empty list; and returns
-1 with ElementNotFound exactly when the list is non-empty and the value is
absent. -/
theorem C8_indexOf {T : Type} [DecidableEq T] [Inhabited T] (s : Singly.St T)
    (value : T) (hwf : Singly.WF s) :
    (∀ k : Nat, (Singly.Values s).2[k]? = some value →
      (∀ m, m < k → ¬ (Singly.Values s).2[m]? = some value) →
      (Singly.IndexOf s value).2 = ((k : Int), none)) ∧
    (s.lst.size = 0 → (Singly.IndexOf s value).2 = (-1, some .emptyList)) ∧
    (¬ s.lst.size = 0 → value ∉ (Singly.Values s).2 →
      (Singly.IndexOf s value).2 = (-1, some .elementNotFound)) := by
  obtain ⟨cells, hinv⟩ := hwf
  have hvals := Singly.Values_inv hinv
  have hsz := hinv.size_eq
  have hred : ¬ s.lst.size = 0 →
      (Singly.IndexOf s value).2 =
        Singly.findIdx s.mem.heap value s.lst.first 0 cells.length := by
    intro hne
    unfold Singly.IndexOf
    rw [if_neg (by simp [Singly.IsEmpty, hne])]
    rw [show s.lst.size.toNat = cells.length from hinv.size_toNat]
  refine ⟨?_, ?_, ?_⟩
  · intro k hk hmin
    rw [hvals] at hk hmin
    have hlen : k < cells.length := by
      obtain ⟨hb, -⟩ := List.getElem?_eq_some.1 hk
      simpa using hb
    have hne : ¬ s.lst.size = 0 := by omega
    rw [hred hne, (Singly.findIdx_spec value 0 hinv.1).2 k hk
      (fun m2 hm2 => hmin m2 hm2)]
    simp
  · intro hsz0
    rw [Singly.IndexOf_empty hsz0 value]
  · intro hne hnm
    rw [hvals] at hnm
    rw [hred hne, (Singly.findIdx_spec value 0 hinv.1).1 hnm]

theorem C8_witness :
    (Singly.IndexOf (Singly.New [(5 : Int), 7, 7]) 7).2 = (1, none) ∧
      (Singly.IndexOf (Singly.New ([] : List Int)) 7).2 =
        (-1, some .emptyList) ∧
      (Singly.IndexOf (Singly.New [(5 : Int), 7, 7]) 9).2 =
        (-1, some .elementNotFound) := by
  have hwf : Singly.WF (Singly.New [(5 : Int), 7, 7]) := by
    obtain ⟨cells, hinv, -⟩ := Singly.New_inv [(5 : Int), 7, 7]
    exact ⟨cells, hinv⟩
  have hwfe : Singly.WF (Singly.New ([] : List Int)) := by
    obtain ⟨cells, hinv, -⟩ := Singly.New_inv ([] : List Int)
    exact ⟨cells, hinv⟩
  refine ⟨?_, ?_, ?_⟩
  · exact (C8_indexOf (Singly.New [(5 : Int), 7, 7]) 7 hwf).1 1 (by decide)
      (by decide)
  · exact (C8_indexOf (Singly.New ([] : List Int)) 7 hwfe).2.1 (by decide)
  · exact (C8_indexOf (Singly.New [(5 : Int), 7, 7]) 9 hwf).2.2 (by decide)
      (by decide)

/-- C9: whenever a fallible operation returns a non-nil error, the whole
program state (hence Size and Values) is exactly what it was before the
call: validation precedes every structural change. -/
theorem C9_atomic_failure {T : Type} [DecidableEq T] [Inhabited T]
    (s : Singly.St T) (index i j : Int) (value : T) (values : List T) :
    ((Singly.First s).2.2 ≠ none → (Singly.First s).1 = s) ∧
    ((Singly.Last s).2.2 ≠ none → (Singly.Last s).1 = s) ∧
    ((Singly.Get s index).2.2 ≠ none → (Singly.Get s index).1 = s) ∧
    ((Singly.IndexOf s value).2.2 ≠ none → (Singly.IndexOf s value).1 = s) ∧
    ((Singly.Remove s index).2 ≠ none → (Singly.Remove s index).1 = s) ∧
    ((Singly.Swap s i j).2 ≠ none → (Singly.Swap s i j).1 = s) ∧
    ((Singly.Insert s index values).2 ≠ none →
      (Singly.Insert s index values).1 = s) ∧
    ((Singly.Set s index value).2 ≠ none →
      (Singly.Set s index value).1 = s) :=
  ⟨fun _ => Singly.First_frame s, fun _ => Singly.Last_frame s,
    fun _ => Singly.Get_frame s index, fun _ => Singly.IndexOf_frame s value,
    Singly.Remove_fail, Singly.Swap_fail, Singly.Insert_err, Singly.Set_fail⟩

theorem C9_witness :
    (Singly.Remove (Singly.New [(1 : Int)]) 5).1 = Singly.New [(1 : Int)] ∧
      (Singly.Insert (Singly.New [(1 : Int)]) (-2) [9]).1 =
        Singly.New [(1 : Int)] ∧
      (Singly.Swap (Singly.New [(1 : Int)]) 0 3).1 =
        Singly.New [(1 : Int)] := by
  have h := C9_atomic_failure (Singly.New [(1 : Int)]) 5 0 3 (0 : Int) [9]
  have h2 := C9_atomic_failure (Singly.New [(1 : Int)]) (-2) 0 3 (0 : Int) [9]
  exact ⟨h.2.2.2.2.1 (by decide), h2.2.2.2.2.2.2.1 (by decide),
    h.2.2.2.2.2.1 (by decide)⟩

/-- C10: every query operation returns the program state it was given:
Size, IsEmpty, First, Last, Get, Values, IndexOf and Contains leave the
list (hence its Size and Values) untouched for every argument. -/
theorem C10_query_frame {T : Type} [DecidableEq T] [Inhabited T]
    (s : Singly.St T) (index : Int) (value : T) (values : List T) :
    (Singly.Size s).1 = s ∧ (Singly.IsEmpty s).1 = s ∧
    (Singly.First s).1 = s ∧ (Singly.Last s).1 = s ∧
    (Singly.Get s index).1 = s ∧ (Singly.Values s).1 = s ∧
    (Singly.IndexOf s value).1 = s ∧ (Singly.Contains s values).1 = s :=
  ⟨Singly.Size_frame s, Singly.IsEmpty_frame s, Singly.First_frame s,
    Singly.Last_frame s, Singly.Get_frame s index,
    Singly.Values_frame s, Singly.IndexOf_frame s value,
    Singly.Contains_frame s values⟩

example : (Singly.Values (Singly.Prepend (Singly.New [3]) [1, 2])).2 = [1, 2, 3] := by
  decide

example : (Singly.Contains (Singly.New [1]) [1, 1]).2 = false := by decide

example : (Singly.Get (Singly.New [1, 2, 3]) 1).2 = (2, none) := by decide

example :
    (Singly.Values ((Singly.Remove (Singly.New [1, 2, 3]) 0).1)).2 = [2, 3] := by
  decide

example :
    (Singly.Values ((Singly.Insert (Singly.New [1, 2, 3]) 1 [9, 8]).1)).2 =
      [1, 9, 8, 2, 3] := by decide

example :
    (Singly.Values ((Singly.Swap (Singly.New [1, 2, 3]) 0 2).1)).2 = [3, 2, 1] := by
  decide

example : (Singly.IndexOf (Singly.New [1, 2, 3]) 2).2 = (1, none) := by decide
